import Mathlib

/-!
Verification of the race strategy projection engine and its web frontend
(f1-analytics-lab).

The frontend components are embedded directly from the TypeScript source
(`RaceSimulation.tsx`, `strategy/page.tsx`).  The backend strategy engine
(ProjectionEngine, UndercutEvaluator, RaceSimulator) is not part of the
provided sources — only its API client, request/response types and UI are —
so those components are modelled from the specification text, as flagged on
each definition.

Times are represented exactly as integers in tenths of a second
(deciseconds): the specification constants 22.0 s, 0.5 s, 90.0 s become
220, 5, 900.  A lap-time oracle value of `none` stands for a non-finite
floating-point result (NaN or infinity).
-/

deriving instance DecidableEq for Except

namespace F1

abbrev DriverId := String

/-- Modelled from the spec: the tyre compound enum of the data model
(SOFT/MEDIUM/HARD/INTERMEDIATE/WET); the backend engine holding it is not in
the provided sources. -/
inductive Compound where
  | soft
  | medium
  | hard
  | intermediate
  | wet
deriving DecidableEq

/-- Modelled from the spec: the track-status enum, reduced to the two values
that the engine distinguishes (green-flag versus safety-car pit loss). -/
inductive TrackStatus where
  | green
  | safetyCar
deriving DecidableEq

/-- Modelled from the spec: the TyreModel constants, passed as an explicit
configuration record (pit loss, safety-car pit loss, warm-up laps, warm-up
penalty per lap, response delay, undercut lookahead).  All times are in
tenths of a second. -/
structure Config where
  pitLoss : ℤ
  scPitLoss : ℤ
  warmupLaps : ℕ
  warmupPenaltyPerLap : ℤ
  responseDelayLaps : ℕ
  lookaheadLaps : ℕ
deriving DecidableEq

/-- Modelled from the spec: per-driver mutable projection state
(`DriverRaceState` of the data model). -/
structure DriverRaceState where
  driver_id : DriverId
  lap : ℕ
  position : ℕ
  cumulative_time : ℤ
  compound : Compound
  tyre_age : ℕ
  pit_count : ℕ
deriving DecidableEq

/-- Modelled from the spec: the immutable projection output row
`(lap, driver_id, lap_time, cumulative_time, position, tyre_age)`. -/
structure LapRecord where
  lap : ℕ
  driver_id : DriverId
  lap_time : ℤ
  cumulative_time : ℤ
  position : ℕ
  tyre_age : ℕ
deriving DecidableEq

/-- Modelled from the spec: the error a projection aborts with when the
lap-time oracle returns a non-finite or negative value; it identifies the
offending driver and lap, and additionally carries the full oracle call
(tyre age, compound, position) and the offending value. -/
structure ProjectionError where
  driver_id : DriverId
  lap : ℕ
  tyre_age : ℕ
  compound : Compound
  position : ℕ
  value : Option ℤ
deriving DecidableEq

/-- Modelled from the spec: the external lap-time oracle
`predict(driver, tyre_age, compound, track_status, position) -> seconds`,
as an injected function; `none` models a non-finite result. -/
abbrev Oracle := DriverId → ℕ → Compound → TrackStatus → ℕ → Option ℤ

/-- Modelled from the spec: a pit plan mapping each driver id to the list of
lap numbers at which that driver pits. -/
abbrev PitPlan := DriverId → List ℕ

/-- An oracle value that the engine must reject: non-finite (`none`) or
negative. -/
def invalidOracleValue : Option ℤ → Prop
  | none => True
  | some b => b < 0

instance : DecidablePred invalidOracleValue := fun v =>
  match v with
  | none => .isTrue trivial
  | some b => inferInstanceAs (Decidable (b < 0))

/-- Modelled from the spec: `lapPenalty(tyreAge, justPitted)` of the
TyreModel, `WARMUP_PENALTY_PER_LAP * max(0, WARMUP_LAPS - tyreAge)` within
the warm-up window and 0 beyond it (natural subtraction supplies the max). -/
def lapPenalty (cfg : Config) (tyreAge : ℕ) (_justPitted : Bool) : ℤ :=
  cfg.warmupPenaltyPerLap * ((cfg.warmupLaps - tyreAge : ℕ) : ℤ)

/-- Modelled from the spec: the pit-loss constant chosen by track status
(green-flag value versus the reduced safety-car value). -/
def pitLossFor (cfg : Config) (ts : TrackStatus) : ℤ :=
  match ts with
  | .green => cfg.pitLoss
  | .safetyCar => cfg.scPitLoss

/-- Modelled from the spec: one driver's update for lap `L` of a projection.
Pitting resets tyre age to 0, adds the pit loss and increments the pit
count; otherwise tyre age grows by one.  The oracle is queried with the
updated tyre age, and a non-finite or negative answer aborts with a
`ProjectionError` naming the driver and lap; otherwise
`lapTime = base + lapPenalty + pitLoss` is added to the cumulative time. -/
def stepDriver (cfg : Config) (oracle : Oracle) (ts : TrackStatus) (plan : PitPlan)
    (L : ℕ) (st : DriverRaceState) : Except ProjectionError (DriverRaceState × ℤ) :=
  let age : ℕ := if L ∈ plan st.driver_id then 0 else st.tyre_age + 1
  let loss : ℤ := if L ∈ plan st.driver_id then pitLossFor cfg ts else 0
  match oracle st.driver_id age st.compound ts st.position with
  | none => .error ⟨st.driver_id, L, age, st.compound, st.position, none⟩
  | some b =>
    if b < 0 then .error ⟨st.driver_id, L, age, st.compound, st.position, some b⟩
    else
      let lt := b + lapPenalty cfg age (decide (L ∈ plan st.driver_id)) + loss
      .ok ({ st with
              lap := L
              tyre_age := age
              pit_count := st.pit_count + (if L ∈ plan st.driver_id then 1 else 0)
              cumulative_time := st.cumulative_time + lt }, lt)

/-- Modelled from the spec: update every driver of the field for lap `L`,
aborting at the first oracle failure. -/
def stepAll (cfg : Config) (oracle : Oracle) (ts : TrackStatus) (plan : PitPlan)
    (L : ℕ) : List DriverRaceState → Except ProjectionError (List (DriverRaceState × ℤ))
  | [] => .ok []
  | st :: rest =>
    match stepDriver cfg oracle ts plan L st with
    | .error e => .error e
    | .ok p =>
      match stepAll cfg oracle ts plan L rest with
      | .error e => .error e
      | .ok ps => .ok (p :: ps)

/-- Ordering used to recompute positions after a lap: cumulative time
ascending, ties broken by driver id. -/
def stepOrder (a b : DriverRaceState × ℤ) : Prop :=
  a.1.cumulative_time < b.1.cumulative_time ∨
    (a.1.cumulative_time = b.1.cumulative_time ∧ a.1.driver_id ≤ b.1.driver_id)

instance : DecidableRel stepOrder := fun a b =>
  inferInstanceAs (Decidable (_ ∨ _ ∧ _))

instance : IsTrans (DriverRaceState × ℤ) stepOrder :=
  ⟨fun a b c hab hbc => by
    unfold stepOrder at hab hbc ⊢
    rcases hab with h1 | ⟨h1, h1d⟩ <;> rcases hbc with h2 | ⟨h2, h2d⟩
    · exact Or.inl (lt_trans h1 h2)
    · exact Or.inl (h2 ▸ h1)
    · exact Or.inl (h1 ▸ h2)
    · exact Or.inr ⟨h1.trans h2, le_trans h1d h2d⟩⟩

instance : IsTotal (DriverRaceState × ℤ) stepOrder :=
  ⟨fun a b => by
    unfold stepOrder
    rcases lt_trichotomy a.1.cumulative_time b.1.cumulative_time with h | h | h
    · exact Or.inl (Or.inl h)
    · rcases le_total a.1.driver_id b.1.driver_id with hd | hd
      · exact Or.inl (Or.inr ⟨h, hd⟩)
      · exact Or.inr (Or.inr ⟨h.symm, hd⟩)
    · exact Or.inr (Or.inl h)⟩

/-- Assign positions `k, k+1, ...` down a sorted list of updated drivers. -/
def assignPos : ℕ → List (DriverRaceState × ℤ) → List (DriverRaceState × ℤ)
  | _, [] => []
  | k, (st, lt) :: rest => ({ st with position := k }, lt) :: assignPos (k + 1) rest

/-- Build the `LapRecord` of one driver for lap `L` from the updated state
and the lap time. -/
def mkRecord (L : ℕ) (p : DriverRaceState × ℤ) : LapRecord :=
  ⟨L, p.1.driver_id, p.2, p.1.cumulative_time, p.1.position, p.1.tyre_age⟩

/-- Modelled from the spec: a full lap of the projection — update every
driver, then recompute positions by sorting on cumulative time (ties broken
by driver id) and emit the lap's records. -/
def stepLap (cfg : Config) (oracle : Oracle) (ts : TrackStatus) (plan : PitPlan)
    (L : ℕ) (sts : List DriverRaceState) :
    Except ProjectionError (List DriverRaceState × List LapRecord) :=
  match stepAll cfg oracle ts plan L sts with
  | .error e => .error e
  | .ok ps =>
    let sorted := assignPos 1 (List.insertionSort stepOrder ps)
    .ok (sorted.map Prod.fst, sorted.map (mkRecord L))

/-- Modelled from the spec: the lap loop of `ProjectionEngine.project`,
driven by the number of laps left to simulate; also returns the final
driver states. -/
def projectAux (cfg : Config) (oracle : Oracle) (ts : TrackStatus) (plan : PitPlan) :
    ℕ → ℕ → List DriverRaceState →
    Except ProjectionError (List LapRecord × List DriverRaceState)
  | 0, _, sts => .ok ([], sts)
  | fuel + 1, L, sts =>
    match stepLap cfg oracle ts plan L sts with
    | .error e => .error e
    | .ok (sts2, recs) =>
      match projectAux cfg oracle ts plan fuel (L + 1) sts2 with
      | .error e => .error e
      | .ok (rest, fin) => .ok (recs ++ rest, fin)

/-- Modelled from the spec: the ProjectionEngine contract
`project(states, plan, fromLap, toLap, trackStatus) -> LapRecord[]`; the
engine itself is not in the provided sources. -/
def project (cfg : Config) (oracle : Oracle) (ts : TrackStatus) (plan : PitPlan)
    (states : List DriverRaceState) (fromLap toLap : ℕ) :
    Except ProjectionError (List LapRecord) :=
  match projectAux cfg oracle ts plan (toLap + 1 - fromLap) fromLap states with
  | .error e => .error e
  | .ok (recs, _) => .ok recs

/-- Modelled from the spec: the window of candidate attacker pit laps the
UndercutEvaluator examines — `current_lap .. current_lap + 9` (ten
scenarios), clipped to laps that exist before the race ends. -/
def candidateLaps (currentLap totalLaps : ℕ) : List ℕ :=
  ((List.range 10).map (fun i => currentLap + i)).filter (fun c => c ≤ totalLaps)

/-- Modelled from the spec: the two-driver plan of one undercut scenario —
the attacker pits at candidate lap `c`, the defender reacts at
`c + RESPONSE_DELAY_LAPS`, clipped to the remaining laps. -/
def undercutPlan (cfg : Config) (atk dfd : DriverId) (c totalLaps : ℕ) : PitPlan :=
  fun d =>
    if d = atk then [c]
    else if d = dfd then [min (c + cfg.responseDelayLaps) totalLaps]
    else []

/-- Modelled from the spec: the seeded two-driver states of an undercut
scenario — the defender leads (position 1, cumulative time 0) and the
attacker trails by `gap` (position 2, cumulative time `gap`), with the given
tyre ages and compounds. -/
def undercutStates (atk dfd : DriverId) (gap : ℤ) (ageA ageD : ℕ)
    (compA compD : Compound) (currentLap : ℕ) : List DriverRaceState :=
  [⟨atk, currentLap - 1, 2, gap, compA, ageA, 0⟩,
   ⟨dfd, currentLap - 1, 1, 0, compD, ageD, 0⟩]

/-- Modelled from the spec: the last simulated lap of an undercut scenario —
a fixed lookahead from the current lap, or the race end, whichever comes
first. -/
def scenarioEnd (cfg : Config) (currentLap totalLaps : ℕ) : ℕ :=
  min (currentLap + cfg.lookaheadLaps - 1) totalLaps

/-- Modelled from the spec: one undercut scenario — project the two seeded
drivers forward under the candidate plan. -/
def runScenario (cfg : Config) (oracle : Oracle) (ts : TrackStatus)
    (atk dfd : DriverId) (gap : ℤ) (ageA ageD : ℕ) (compA compD : Compound)
    (currentLap totalLaps c : ℕ) : Except ProjectionError (List LapRecord) :=
  project cfg oracle ts (undercutPlan cfg atk dfd c totalLaps)
    (undercutStates atk dfd gap ageA ageD compA compD currentLap)
    currentLap (scenarioEnd cfg currentLap totalLaps)

/-- Modelled from the spec: the full list of candidate scenarios the
UndercutEvaluator evaluates, one per candidate pit lap. -/
def undercutScenarios (cfg : Config) (oracle : Oracle) (ts : TrackStatus)
    (atk dfd : DriverId) (gap : ℤ) (ageA ageD : ℕ) (compA compD : Compound)
    (currentLap totalLaps : ℕ) :
    List (ℕ × Except ProjectionError (List LapRecord)) :=
  (candidateLaps currentLap totalLaps).map
    (fun c => (c, runScenario cfg oracle ts atk dfd gap ageA ageD compA compD
      currentLap totalLaps c))

/-- Final cumulative time of a driver in a scenario trace (0 if the driver
never appears). -/
def finalCum (d : DriverId) (recs : List LapRecord) : ℤ :=
  (((recs.filter (fun r => r.driver_id == d)).map
    (fun r => r.cumulative_time)).getLast?).getD 0

/-- Modelled from the spec: the signed gap at the end of a scenario,
positive when the attacker ends ahead of the defender. -/
def timeDelta (atk dfd : DriverId) (recs : List LapRecord) : ℤ :=
  finalCum dfd recs - finalCum atk recs

/-- Modelled from the spec: pick the scenario that maximises the time gained
by the attacker (the signed final gap), the earliest candidate winning
ties; failed scenarios are skipped. -/
def pickBest (atk dfd : DriverId) :
    List (ℕ × Except ProjectionError (List LapRecord)) →
    Option (ℕ × List LapRecord) :=
  List.foldl
    (fun best cr =>
      match cr.2 with
      | .error _ => best
      | .ok recs =>
        match best with
        | none => some (cr.1, recs)
        | some b =>
          if timeDelta atk dfd b.2 < timeDelta atk dfd recs then some (cr.1, recs)
          else best)
    none

/-- Modelled from the spec: the attacker's out-lap time reported by the
UndercutEvaluator — the attacker's lap time on the pit lap of the winning
scenario, the lap that carries the pit loss and the full warm-up penalty. -/
def attackerOutlapOf (atk : DriverId) (best : Option (ℕ × List LapRecord)) :
    Option ℤ :=
  best.bind (fun b =>
    (b.2.find? (fun r => r.driver_id == atk && r.lap == b.1)).map
      (fun r => r.lap_time))

/-- Modelled from the spec: the UndercutEvaluator's reported attacker
out-lap — evaluate every candidate scenario, pick the best, read the
attacker's lap time on its pit lap. -/
def evalUndercutOutlap (cfg : Config) (oracle : Oracle) (ts : TrackStatus)
    (atk dfd : DriverId) (gap : ℤ) (ageA ageD : ℕ) (compA compD : Compound)
    (currentLap totalLaps : ℕ) : Option ℤ :=
  attackerOutlapOf atk (pickBest atk dfd
    (undercutScenarios cfg oracle ts atk dfd gap ageA ageD compA compD
      currentLap totalLaps))

/-- Modelled from the spec: the RaceSimulator response — final
classification, per-lap position maps, per-driver pit-stop totals and the
fastest lap. -/
structure RaceSimOutput where
  final_classification : List (DriverId × ℕ)
  lap_by_lap_positions : List (List (DriverId × ℕ))
  total_pit_stops : List (DriverId × ℕ)
  fastest_lap : Option LapRecord
deriving DecidableEq

/-- Modelled from the spec: fresh per-driver states at the race start —
grid positions in list order, zero cumulative time, fresh tyres, no stops
(the compound per stop is left unspecified by the contract; a fixed MEDIUM
is used). -/
def seedStates : ℕ → List DriverId → List DriverRaceState
  | _, [] => []
  | k, d :: rest => ⟨d, 0, k, 0, .medium, 0, 0⟩ :: seedStates (k + 1) rest

/-- Single record with the minimum lap time across the run (first such on
ties). -/
def fastestLap : List LapRecord → Option LapRecord :=
  List.foldl
    (fun best r =>
      match best with
      | none => some r
      | some b => if r.lap_time < b.lap_time then some r else best)
    none

/-- Modelled from the spec: the RaceSimulator — run the whole field from
lap 1 to `total_laps` under the supplied explicit pit plans and extract the
classification, the per-lap position maps, the per-driver stop counts and
the fastest lap; the backend component is not in the provided sources. -/
def raceSimulator (cfg : Config) (oracle : Oracle) (totalLaps : ℕ)
    (drivers : List DriverId) (plan : PitPlan) :
    Except ProjectionError RaceSimOutput :=
  match projectAux cfg oracle .green plan totalLaps 1 (seedStates 1 drivers) with
  | .error e => .error e
  | .ok (recs, fin) =>
    .ok { final_classification := fin.map (fun st => (st.driver_id, st.position))
          lap_by_lap_positions := (List.range' 1 totalLaps).map
            (fun L => (recs.filter (fun r => r.lap == L)).map
              (fun r => (r.driver_id, r.position)))
          total_pit_stops := fin.map (fun st => (st.driver_id, st.pit_count))
          fastest_lap := fastestLap recs }

/-- Verdict rendered by the frontend for an undercut success probability
(`getVerdictConfig` in `strategy/page.tsx`). -/
inductive Verdict where
  | recommended
  | risky
  | notRecommended
deriving DecidableEq

/-- Embedded from `strategy/page.tsx`: the verdict chosen from the success
probability — `> 0.7` recommended, `> 0.4` risky, otherwise not
recommended. -/
def getVerdictConfig (p : ℚ) : Verdict :=
  if p > 7 / 10 then .recommended
  else if p > 4 / 10 then .risky
  else .notRecommended

/-- Ascending order on the `(driver, position)` pairs of a lap, as sorted by
the frontend's comparator `(a, b) => a.position - b.position`. -/
def posOrder (a b : String × ℤ) : Prop := a.2 ≤ b.2

instance : DecidableRel posOrder := fun x y =>
  inferInstanceAs (Decidable (x.2 ≤ y.2))

instance : IsTotal (String × ℤ) posOrder :=
  ⟨fun x y => Int.le_total x.2 y.2⟩

instance : IsTrans (String × ℤ) posOrder :=
  ⟨fun _ _ _ h h2 => Int.le_trans h h2⟩

/-- Embedded from `RaceSimulation.tsx` (`getCurrentPositions`): with no
simulation result, or a playback index at or past the end of
`lap_by_lap_positions`, return the empty list; otherwise return that lap's
driver/position entries sorted ascending by position.  A lap's position map
is its list of `(driver, position)` entries in object order. -/
def getCurrentPositions : Option (List (List (String × ℤ))) → ℕ →
    List (String × ℤ)
  | none, _ => []
  | some laps, currentLap =>
    if h : currentLap < laps.length then
      List.insertionSort posOrder laps[currentLap]
    else []

/-- Split a character list at commas, mirroring the JavaScript
`String.split(",")`. -/
def splitComma : List Char → List (List Char)
  | [] => [[]]
  | c :: rest =>
    if c = ',' then [] :: splitComma rest
    else
      match splitComma rest with
      | [] => [[c]]
      | t :: ts => (c :: t) :: ts

/-- Strip leading and trailing whitespace, mirroring `String.trim`. -/
def trimChars (cs : List Char) : List Char :=
  ((cs.dropWhile Char.isWhitespace).reverse.dropWhile Char.isWhitespace).reverse

/-- Numeric value of a list of decimal digits. -/
def natOfDecDigits (cs : List Char) : ℕ :=
  cs.foldl (fun a c => 10 * a + (c.toNat - 48)) 0

/-- Hexadecimal digit test for the `0x` branch of `parseInt`. -/
def isHexDigitChar (c : Char) : Bool :=
  c.isDigit || ('a' ≤ c && c ≤ 'f') || ('A' ≤ c && c ≤ 'F')

/-- Numeric value of one hexadecimal digit. -/
def hexDigitVal (c : Char) : ℕ :=
  if c.isDigit then c.toNat - 48
  else if 'a' ≤ c && c ≤ 'f' then c.toNat - 87
  else c.toNat - 55

/-- Numeric value of a list of hexadecimal digits. -/
def natOfHexDigits (cs : List Char) : ℕ :=
  cs.foldl (fun a c => 16 * a + hexDigitVal c) 0

/-- Unsigned core of JavaScript `parseInt` with no explicit radix: a `0x`
or `0X` prefix switches to hexadecimal, otherwise the longest leading run
of decimal digits is read; no digits at all gives NaN (`none`). -/
def parseIntCore (cs : List Char) : Option ℕ :=
  match cs with
  | '0' :: c :: rest =>
    if c = 'x' ∨ c = 'X' then
      let ds := rest.takeWhile isHexDigitChar
      if ds.isEmpty then none else some (natOfHexDigits ds)
    else
      let ds := (('0' : Char) :: c :: rest).takeWhile Char.isDigit
      if ds.isEmpty then none else some (natOfDecDigits ds)
  | _ =>
    let ds := cs.takeWhile Char.isDigit
    if ds.isEmpty then none else some (natOfDecDigits ds)

/-- JavaScript `parseInt` on an already-trimmed token: optional sign, then
the unsigned core; `none` models NaN. -/
def jsParseInt (cs : List Char) : Option ℤ :=
  match cs with
  | '-' :: rest => (parseIntCore rest).map (fun n => -(n : ℤ))
  | '+' :: rest => (parseIntCore rest).map (fun n => (n : ℤ))
  | _ => (parseIntCore cs).map (fun n => (n : ℤ))

/-- Filter of `handleSimulate`: keep a parsed value `l` only when
`!isNaN(l) && l > 0 && l <= totalLaps`. -/
def keepLap (totalLaps : ℤ) : Option ℤ → Option ℤ
  | none => none
  | some l => if 0 < l ∧ l ≤ totalLaps then some l else none

/-- Embedded from `RaceSimulation.tsx` (`handleSimulate`): parse one
driver's pit-strategy text — split on commas, `parseInt` each trimmed
token, and keep only the values that pass the range filter, in entry
order. -/
def parsePitLaps (s : String) (totalLaps : ℤ) : List ℤ :=
  (splitComma s.toList).filterMap
    (fun tok => keepLap totalLaps (jsParseInt (trimChars tok)))

/-- Two-driver states used by the concrete witnesses below. -/
def statesW : List DriverRaceState :=
  [⟨"VER", 0, 1, 0, .soft, 0, 0⟩, ⟨"LEC", 0, 2, 10, .soft, 0, 0⟩]

/-- Concrete configuration with the spec's reference constants, in tenths of
a second: pit loss 22.0 s, safety-car pit loss 11.0 s, 2 warm-up laps at
0.5 s/lap, response delay 3 laps, lookahead 20 laps. -/
def cfgDefault : Config := ⟨220, 110, 2, 5, 3, 20⟩

/-- Oracle stub returning a flat 90.0 s for every driver regardless of tyre
age, as in the spec's undercut scenario. -/
def oracleFlat : Oracle := fun _ _ _ _ _ => some 900

/-- Expected record trace of the two-driver witness run (two laps, flat
oracle, no stops). -/
def outW : List LapRecord :=
  [⟨1, "VER", 905, 905, 1, 1⟩, ⟨1, "LEC", 905, 915, 2, 1⟩,
   ⟨2, "VER", 900, 1805, 1, 2⟩, ⟨2, "LEC", 900, 1815, 2, 2⟩]

/-- Oracle stub that misbehaves (returns a non-finite value) for one
driver. -/
def oracleBadW : Oracle := fun d _ _ _ _ => if d = "LEC" then none else some 900

/-- The projection error produced by `oracleBadW` on the witness run. -/
def eW : ProjectionError := ⟨"LEC", 1, 1, .soft, 2, none⟩

/-- Expected simulator output of the one-driver witness race (three laps,
one stop at lap 2). -/
def outR8 : RaceSimOutput :=
  { final_classification := [("VER", 1)]
    lap_by_lap_positions := [[("VER", 1)], [("VER", 1)], [("VER", 1)]]
    total_pit_stops := [("VER", 1)]
    fastest_lap := some ⟨1, "VER", 905, 905, 1, 1⟩ }

/-- Expected simulator output of the one-driver witness race with an empty
plan (two laps, no stops). -/
def outR8e : RaceSimOutput :=
  { final_classification := [("VER", 1)]
    lap_by_lap_positions := [[("VER", 1)], [("VER", 1)]]
    total_pit_stops := [("VER", 0)]
    fastest_lap := some ⟨2, "VER", 900, 1805, 1, 2⟩ }

/-- Oracle contract of the spec: every returned value is finite and
positive. -/
def oraclePos (oracle : Oracle) (ts : TrackStatus) : Prop :=
  ∀ d a c p b, oracle d a c ts p = some b → 0 < b

/-- Nonnegative tuning constants: warm-up penalty and both pit losses. -/
def cfgNonneg (cfg : Config) : Prop :=
  0 ≤ cfg.warmupPenaltyPerLap ∧ 0 ≤ cfg.pitLoss ∧ 0 ≤ cfg.scPitLoss

/-- Agreement of two driver states on every field except `position`. -/
def sameButPosition (x y : DriverRaceState) : Prop :=
  x.driver_id = y.driver_id ∧ x.lap = y.lap ∧
    x.cumulative_time = y.cumulative_time ∧ x.compound = y.compound ∧
    x.tyre_age = y.tyre_age ∧ x.pit_count = y.pit_count

/-! ## Theorems -/

/-- Shape of a failing `stepDriver` call: the error records exactly the
oracle call that was made and its invalid answer, and names the driver and
the lap. -/
theorem stepDriver_error_spec (cfg : Config) (oracle : Oracle) (ts : TrackStatus)
    (plan : PitPlan) (L : ℕ) (st : DriverRaceState) (e : ProjectionError)
    (h : stepDriver cfg oracle ts plan L st = .error e) :
    oracle e.driver_id e.tyre_age e.compound ts e.position = e.value ∧
      invalidOracleValue e.value ∧ e.lap = L ∧ e.driver_id = st.driver_id := by
  simp only [stepDriver] at h
  split at h
  · rename_i heq
    injection h with h1
    subst h1
    exact ⟨heq, trivial, rfl, rfl⟩
  · rename_i b heq
    split at h
    · rename_i hb
      injection h with h1
      subst h1
      exact ⟨heq, hb, rfl, rfl⟩
    · exact Except.noConfusion h

/-- Shape of a successful `stepDriver` call: some valid oracle base time
was obtained for the post-update tyre age, the lap time adds the warm-up
penalty and the pit loss to it, and the state advances accordingly. -/
theorem stepDriver_ok_spec (cfg : Config) (oracle : Oracle) (ts : TrackStatus)
    (plan : PitPlan) (L : ℕ) (st : DriverRaceState) (p : DriverRaceState × ℤ)
    (h : stepDriver cfg oracle ts plan L st = .ok p) :
    ∃ b, oracle st.driver_id
        (if L ∈ plan st.driver_id then 0 else st.tyre_age + 1)
        st.compound ts st.position = some b ∧ 0 ≤ b ∧
      p.2 = b + lapPenalty cfg
          (if L ∈ plan st.driver_id then 0 else st.tyre_age + 1)
          (decide (L ∈ plan st.driver_id)) +
        (if L ∈ plan st.driver_id then pitLossFor cfg ts else 0) ∧
      p.1 = { st with
              lap := L
              tyre_age := if L ∈ plan st.driver_id then 0 else st.tyre_age + 1
              pit_count := st.pit_count + (if L ∈ plan st.driver_id then 1 else 0)
              cumulative_time := st.cumulative_time + p.2 } := by
  simp only [stepDriver] at h
  split at h
  · exact Except.noConfusion h
  · rename_i b heq
    split at h
    · exact Except.noConfusion h
    · rename_i hb
      injection h with h1
      subst h1
      exact ⟨b, heq, le_of_not_lt hb, rfl, rfl⟩

/-- Lap-time positivity: with a positive oracle and nonnegative constants,
every successful driver step strictly increases the cumulative time and
keeps the driver id. -/
theorem stepDriver_increase (cfg : Config) (oracle : Oracle) (ts : TrackStatus)
    (plan : PitPlan) (L : ℕ) (st : DriverRaceState) (p : DriverRaceState × ℤ)
    (hc : cfgNonneg cfg) (ho : oraclePos oracle ts)
    (h : stepDriver cfg oracle ts plan L st = .ok p) :
    st.cumulative_time < p.1.cumulative_time ∧ p.1.driver_id = st.driver_id := by
  obtain ⟨b, hb, -, hlt, hst⟩ := stepDriver_ok_spec cfg oracle ts plan L st p h
  have hbpos : 0 < b := ho _ _ _ _ _ hb
  have hpen : 0 ≤ lapPenalty cfg
      (if L ∈ plan st.driver_id then 0 else st.tyre_age + 1)
      (decide (L ∈ plan st.driver_id)) :=
    mul_nonneg hc.1 (Int.natCast_nonneg _)
  have hloss : 0 ≤ (if L ∈ plan st.driver_id then pitLossFor cfg ts else 0) := by
    split
    · cases ts
      · exact hc.2.1
      · exact hc.2.2
    · exact le_refl 0
  constructor
  · rw [hst]
    have : 0 < p.2 := by rw [hlt]; omega
    simpa using this
  · rw [hst]

/-- Length preservation of the per-lap field update. -/
theorem stepAll_ok_length (cfg : Config) (oracle : Oracle) (ts : TrackStatus)
    (plan : PitPlan) (L : ℕ) :
    ∀ sts ps, stepAll cfg oracle ts plan L sts = .ok ps →
      ps.length = sts.length := by
  intro sts
  induction sts with
  | nil =>
    intro ps h
    simp only [stepAll] at h
    injection h with h1
    subst h1
    rfl
  | cons st rest ih =>
    intro ps h
    simp only [stepAll] at h
    split at h
    · exact Except.noConfusion h
    · rename_i p heq1
      split at h
      · exact Except.noConfusion h
      · rename_i ps2 heq2
        injection h with h1
        subst h1
        simp [ih ps2 heq2]

/-- Every updated pair of a successful field update comes from stepping a
member of the input field. -/
theorem stepAll_ok_forward (cfg : Config) (oracle : Oracle) (ts : TrackStatus)
    (plan : PitPlan) (L : ℕ) :
    ∀ sts ps, stepAll cfg oracle ts plan L sts = .ok ps →
      ∀ p ∈ ps, ∃ st ∈ sts, stepDriver cfg oracle ts plan L st = .ok p := by
  intro sts
  induction sts with
  | nil =>
    intro ps h p hp
    simp only [stepAll] at h
    injection h with h1
    subst h1
    cases hp
  | cons st rest ih =>
    intro ps h p hp
    simp only [stepAll] at h
    split at h
    · exact Except.noConfusion h
    · rename_i q heq1
      split at h
      · exact Except.noConfusion h
      · rename_i ps2 heq2
        injection h with h1
        subst h1
        rcases hp with _ | hp2
        · exact ⟨st, List.mem_cons_self st rest, heq1⟩
        · obtain ⟨st0, hmem, hstep⟩ := ih ps2 heq2 p (by assumption)
          exact ⟨st0, List.mem_cons_of_mem st hmem, hstep⟩

/-- Every member of the input field is stepped into some updated pair. -/
theorem stepAll_ok_backward (cfg : Config) (oracle : Oracle) (ts : TrackStatus)
    (plan : PitPlan) (L : ℕ) :
    ∀ sts ps, stepAll cfg oracle ts plan L sts = .ok ps →
      ∀ st ∈ sts, ∃ p ∈ ps, stepDriver cfg oracle ts plan L st = .ok p := by
  intro sts
  induction sts with
  | nil =>
    intro ps h st hst
    cases hst
  | cons st0 rest ih =>
    intro ps h st hst
    simp only [stepAll] at h
    split at h
    · exact Except.noConfusion h
    · rename_i q heq1
      split at h
      · exact Except.noConfusion h
      · rename_i ps2 heq2
        injection h with h1
        subst h1
        rcases hst with _ | hst2
        · exact ⟨q, List.mem_cons_self q ps2, heq1⟩
        · obtain ⟨p, hmem, hstep⟩ := ih ps2 heq2 st (by assumption)
          exact ⟨p, List.mem_cons_of_mem q hmem, hstep⟩

/-- Driver ids are preserved, in order, by the per-lap field update. -/
theorem stepAll_ok_drivers (cfg : Config) (oracle : Oracle) (ts : TrackStatus)
    (plan : PitPlan) (L : ℕ) :
    ∀ sts ps, stepAll cfg oracle ts plan L sts = .ok ps →
      ps.map (fun p => p.1.driver_id) = sts.map (fun s => s.driver_id) := by
  intro sts
  induction sts with
  | nil =>
    intro ps h
    simp only [stepAll] at h
    injection h with h1
    subst h1
    rfl
  | cons st rest ih =>
    intro ps h
    simp only [stepAll] at h
    split at h
    · exact Except.noConfusion h
    · rename_i p heq1
      split at h
      · exact Except.noConfusion h
      · rename_i ps2 heq2
        injection h with h1
        subst h1
        obtain ⟨b, -, -, -, hst⟩ := stepDriver_ok_spec cfg oracle ts plan L st p heq1
        simp only [List.map_cons, ih ps2 heq2, hst]

/-- Position assignment preserves length. -/
theorem assignPos_length : ∀ (k : ℕ) (l : List (DriverRaceState × ℤ)),
    (assignPos k l).length = l.length := by
  intro k l
  induction l generalizing k with
  | nil => rfl
  | cons p rest ih =>
    obtain ⟨st, lt⟩ := p
    simp only [assignPos, List.length_cons, ih]

/-- Position assignment writes consecutive ranks down the list. -/
theorem assignPos_positions : ∀ (k : ℕ) (l : List (DriverRaceState × ℤ)),
    (assignPos k l).map (fun x => x.1.position) = List.range' k l.length := by
  intro k l
  induction l generalizing k with
  | nil => rfl
  | cons p rest ih =>
    obtain ⟨st, lt⟩ := p
    rw [List.length_cons, List.range'_succ k rest.length 1]
    simp only [assignPos, List.map_cons, ih]

/-- Everything position assignment emits differs from a member of its input
only in the `position` field. -/
theorem assignPos_forward : ∀ (k : ℕ) (l : List (DriverRaceState × ℤ)),
    ∀ x ∈ assignPos k l, ∃ y ∈ l, sameButPosition x.1 y.1 ∧ x.2 = y.2 := by
  intro k l
  induction l generalizing k with
  | nil => intro x hx; cases hx
  | cons p rest ih =>
    obtain ⟨st, lt⟩ := p
    intro x hx
    simp only [assignPos] at hx
    rcases hx with _ | hx2
    · exact ⟨(st, lt), List.mem_cons_self _ _, ⟨rfl, rfl, rfl, rfl, rfl, rfl⟩, rfl⟩
    · obtain ⟨y, hmem, hrel⟩ := ih (k + 1) x (by assumption)
      exact ⟨y, List.mem_cons_of_mem _ hmem, hrel⟩

/-- Position assignment keeps the driver ids in order. -/
theorem assignPos_drivers : ∀ (k : ℕ) (l : List (DriverRaceState × ℤ)),
    (assignPos k l).map (fun x => x.1.driver_id) =
      l.map (fun y => y.1.driver_id) := by
  intro k l
  induction l generalizing k with
  | nil => rfl
  | cons p rest ih =>
    obtain ⟨st, lt⟩ := p
    simp only [assignPos, List.map_cons, ih]

/-- A failing field update pinpoints a failing driver step. -/
theorem stepAll_error_spec (cfg : Config) (oracle : Oracle) (ts : TrackStatus)
    (plan : PitPlan) (L : ℕ) :
    ∀ sts e, stepAll cfg oracle ts plan L sts = .error e →
      ∃ st ∈ sts, stepDriver cfg oracle ts plan L st = .error e := by
  intro sts
  induction sts with
  | nil =>
    intro e h
    simp only [stepAll] at h
    exact Except.noConfusion h
  | cons st rest ih =>
    intro e h
    simp only [stepAll] at h
    split at h
    · rename_i heq
      injection h with h1
      subst h1
      exact ⟨st, List.mem_cons_self st rest, heq⟩
    · rename_i p heq1
      split at h
      · rename_i heq2
        injection h with h1
        subst h1
        obtain ⟨st0, hmem, hstep⟩ := ih _ heq2
        exact ⟨st0, List.mem_cons_of_mem st hmem, hstep⟩
      · exact Except.noConfusion h

/-- C9: for every success probability `p` in `[0,1]`, `getVerdictConfig`
yields exactly one of the three verdicts, partitioning the range:
recommended iff `p > 0.7`, risky iff `0.4 < p ≤ 0.7`, not recommended iff
`p ≤ 0.4`. -/
theorem c9_verdict_partition (p : ℚ) (h0 : 0 ≤ p) (h1 : p ≤ 1) :
    (getVerdictConfig p = .recommended ↔ 7 / 10 < p) ∧
    (getVerdictConfig p = .risky ↔ 4 / 10 < p ∧ p ≤ 7 / 10) ∧
    (getVerdictConfig p = .notRecommended ↔ p ≤ 4 / 10) := by
  unfold getVerdictConfig
  split_ifs with hA hB
  · exact ⟨⟨fun _ => hA, fun _ => rfl⟩,
      ⟨fun hh => (by cases hh), fun hh => absurd hA (not_lt.mpr hh.2)⟩,
      ⟨fun hh => (by cases hh),
        fun hh => absurd hA (not_lt.mpr (hh.trans (by norm_num)))⟩⟩
  · exact ⟨⟨fun hh => (by cases hh), fun hh => absurd hh hA⟩,
      ⟨fun _ => ⟨hB, not_lt.mp hA⟩, fun _ => rfl⟩,
      ⟨fun hh => (by cases hh), fun hh => absurd hB (not_lt.mpr hh)⟩⟩
  · exact ⟨⟨fun hh => (by cases hh), fun hh => absurd hh hA⟩,
      ⟨fun hh => (by cases hh), fun hh => absurd hh.1 hB⟩,
      ⟨fun _ => not_lt.mp hB, fun _ => rfl⟩⟩

/-- Witness for C9 at the concrete probability 0.5: the verdict is risky. -/
theorem c9_verdict_partition_witness : getVerdictConfig (1 / 2) = .risky :=
  ((c9_verdict_partition (1 / 2) (by norm_num) (by norm_num)).2.1).mpr
    (by norm_num)

/-- C10: `getCurrentPositions` returns the empty list when there is no
simulation result or the playback index is at or past the end of
`lap_by_lap_positions`; otherwise it returns that lap's driver/position
pairs sorted ascending by position — it never reads past the end of the
list. -/
theorem c10_getCurrentPositions_safe :
    (∀ lap, getCurrentPositions none lap = []) ∧
    (∀ laps lap, laps.length ≤ lap → getCurrentPositions (some laps) lap = []) ∧
    (∀ laps lap (h : lap < laps.length),
      List.Perm (getCurrentPositions (some laps) lap) laps[lap] ∧
      List.Sorted posOrder (getCurrentPositions (some laps) lap)) := by
  refine ⟨fun lap => rfl, fun laps lap hle => ?_, fun laps lap h => ?_⟩
  · simp only [getCurrentPositions]
    rw [dif_neg (not_lt.mpr hle)]
  · simp only [getCurrentPositions]
    rw [dif_pos h]
    exact ⟨List.perm_insertionSort _ _, List.sorted_insertionSort _ _⟩

/-- Witness for C10 on a concrete one-lap result: the entries are returned
as a permutation of the stored map, sorted by position. -/
theorem c10_getCurrentPositions_safe_witness :
    List.Perm (getCurrentPositions (some [[("LEC", 2), ("VER", 1)]]) 0)
      [("LEC", 2), ("VER", 1)] ∧
    List.Sorted posOrder (getCurrentPositions (some [[("LEC", 2), ("VER", 1)]]) 0) :=
  c10_getCurrentPositions_safe.2.2 [[("LEC", 2), ("VER", 1)]] 0 (by decide)

/-- C2 counterexample: the parsed pit plan is not an ordered, deduplicated
set — the input "40,20,20" parses to `[40, 20, 20]`, which is neither
sorted nor duplicate-free, yet reaches the engine as is. -/
theorem c2_counterexample :
    parsePitLaps "40,20,20" 57 = [40, 20, 20] ∧
    ¬ List.Sorted (· ≤ ·) (parsePitLaps "40,20,20" 57) ∧
    ¬ (parsePitLaps "40,20,20" 57).Nodup := by
  refine ⟨by decide, by decide, by decide⟩

/-- C2 (amended): every lap number in a parsed pit plan lies in
`[1, total_laps]` — tokens that are not numbers or are out of range are
dropped, so the plan that reaches the engine never contains an invalid lap,
but the list keeps the entry order and may contain duplicates. -/
theorem c2_parsed_plan_in_range (s : String) (totalLaps : ℤ) (l : ℤ)
    (hl : l ∈ parsePitLaps s totalLaps) : 0 < l ∧ l ≤ totalLaps := by
  unfold parsePitLaps at hl
  rw [List.mem_filterMap] at hl
  obtain ⟨tok, -, htok⟩ := hl
  cases hj : jsParseInt (trimChars tok) with
  | none => rw [hj] at htok; cases htok
  | some v =>
    rw [hj] at htok
    simp only [keepLap] at htok
    by_cases hc : 0 < v ∧ v ≤ totalLaps
    · rw [if_pos hc] at htok
      injection htok with hv
      exact hv ▸ hc
    · rw [if_neg hc] at htok
      cases htok

/-- Witness for C2 (amended) at the default input "20,40": the parsed lap
20 lies in `[1, 57]`. -/
theorem c2_parsed_plan_in_range_witness : 0 < (20 : ℤ) ∧ (20 : ℤ) ≤ 57 :=
  c2_parsed_plan_in_range "20,40" 57 20 (by decide)

/-- Shape of a successful projection lap: the drivers were all stepped,
then sorted and re-ranked, and the lap records mirror that list. -/
theorem stepLap_ok_spec (cfg : Config) (oracle : Oracle) (ts : TrackStatus)
    (plan : PitPlan) (L : ℕ) (sts sts2 : List DriverRaceState)
    (recs : List LapRecord)
    (h : stepLap cfg oracle ts plan L sts = .ok (sts2, recs)) :
    ∃ ps, stepAll cfg oracle ts plan L sts = .ok ps ∧
      sts2 = (assignPos 1 (List.insertionSort stepOrder ps)).map Prod.fst ∧
      recs = (assignPos 1 (List.insertionSort stepOrder ps)).map (mkRecord L) := by
  simp only [stepLap] at h
  split at h
  · exact Except.noConfusion h
  · rename_i ps heq
    injection h with h1
    injection h1 with h2 h3
    exact ⟨ps, heq, h2.symm, h3.symm⟩

/-- A failing projection lap pinpoints a failing driver step. -/
theorem stepLap_error_spec (cfg : Config) (oracle : Oracle) (ts : TrackStatus)
    (plan : PitPlan) (L : ℕ) (sts : List DriverRaceState) (e : ProjectionError)
    (h : stepLap cfg oracle ts plan L sts = .error e) :
    ∃ st ∈ sts, stepDriver cfg oracle ts plan L st = .error e := by
  simp only [stepLap] at h
  split at h
  · rename_i heq
    injection h with h1
    subst h1
    exact stepAll_error_spec cfg oracle ts plan L sts _ heq
  · exact Except.noConfusion h

/-- A projection lap keeps the field size, in states and in records. -/
theorem stepLap_lengths (cfg : Config) (oracle : Oracle) (ts : TrackStatus)
    (plan : PitPlan) (L : ℕ) (sts sts2 : List DriverRaceState)
    (recs : List LapRecord)
    (h : stepLap cfg oracle ts plan L sts = .ok (sts2, recs)) :
    sts2.length = sts.length ∧ recs.length = sts.length := by
  obtain ⟨ps, hall, h2, h3⟩ := stepLap_ok_spec cfg oracle ts plan L sts sts2 recs h
  have hsort : (List.insertionSort stepOrder ps).length = ps.length :=
    (List.perm_insertionSort stepOrder ps).length_eq
  have hlen := stepAll_ok_length cfg oracle ts plan L sts ps hall
  constructor
  · rw [h2, List.length_map, assignPos_length, hsort, hlen]
  · rw [h3, List.length_map, assignPos_length, hsort, hlen]

/-- Every record of a projection lap carries that lap number. -/
theorem stepLap_rec_lap (cfg : Config) (oracle : Oracle) (ts : TrackStatus)
    (plan : PitPlan) (L : ℕ) (sts sts2 : List DriverRaceState)
    (recs : List LapRecord)
    (h : stepLap cfg oracle ts plan L sts = .ok (sts2, recs)) :
    ∀ r ∈ recs, r.lap = L := by
  obtain ⟨ps, -, -, h3⟩ := stepLap_ok_spec cfg oracle ts plan L sts sts2 recs h
  intro r hr
  rw [h3] at hr
  obtain ⟨x, -, hx⟩ := List.mem_map.mp hr
  rw [← hx]
  rfl

/-- The positions of a projection lap's records are exactly `1..N` in
emission order. -/
theorem stepLap_positions (cfg : Config) (oracle : Oracle) (ts : TrackStatus)
    (plan : PitPlan) (L : ℕ) (sts sts2 : List DriverRaceState)
    (recs : List LapRecord)
    (h : stepLap cfg oracle ts plan L sts = .ok (sts2, recs)) :
    recs.map (fun r => r.position) = List.range' 1 sts.length := by
  obtain ⟨ps, hall, -, h3⟩ := stepLap_ok_spec cfg oracle ts plan L sts sts2 recs h
  have hsort : (List.insertionSort stepOrder ps).length = ps.length :=
    (List.perm_insertionSort stepOrder ps).length_eq
  have hlen := stepAll_ok_length cfg oracle ts plan L sts ps hall
  rw [h3, List.map_map]
  have hpos := assignPos_positions 1 (List.insertionSort stepOrder ps)
  rw [hsort, hlen] at hpos
  exact hpos

/-- Each record of a projection lap is the trace of one stepped driver of
the incoming field. -/
theorem stepLap_rec_source (cfg : Config) (oracle : Oracle) (ts : TrackStatus)
    (plan : PitPlan) (L : ℕ) (sts sts2 : List DriverRaceState)
    (recs : List LapRecord)
    (h : stepLap cfg oracle ts plan L sts = .ok (sts2, recs)) :
    ∀ r ∈ recs, ∃ st ∈ sts, ∃ p, stepDriver cfg oracle ts plan L st = .ok p ∧
      r.driver_id = p.1.driver_id ∧ r.cumulative_time = p.1.cumulative_time ∧
      r.tyre_age = p.1.tyre_age ∧ r.lap_time = p.2 ∧ r.lap = L := by
  obtain ⟨ps, hall, -, h3⟩ := stepLap_ok_spec cfg oracle ts plan L sts sts2 recs h
  intro r hr
  rw [h3] at hr
  obtain ⟨x, hxmem, hx⟩ := List.mem_map.mp hr
  obtain ⟨y, hymem, hrel, hsnd⟩ :=
    assignPos_forward 1 (List.insertionSort stepOrder ps) x hxmem
  have hyps : y ∈ ps := (List.perm_insertionSort stepOrder ps).mem_iff.mp hymem
  obtain ⟨st, hstmem, hstep⟩ := stepAll_ok_forward cfg oracle ts plan L sts ps hall y hyps
  refine ⟨st, hstmem, y, hstep, ?_, ?_, ?_, ?_, ?_⟩
  · rw [← hx]; exact hrel.1
  · rw [← hx]; exact hrel.2.2.1
  · rw [← hx]; exact hrel.2.2.2.2.1
  · rw [← hx]; exact hsnd
  · rw [← hx]; rfl

/-- Each record of a projection lap matches an outgoing state on driver,
cumulative time and tyre age. -/
theorem stepLap_rec_state (cfg : Config) (oracle : Oracle) (ts : TrackStatus)
    (plan : PitPlan) (L : ℕ) (sts sts2 : List DriverRaceState)
    (recs : List LapRecord)
    (h : stepLap cfg oracle ts plan L sts = .ok (sts2, recs)) :
    ∀ r ∈ recs, ∃ st2 ∈ sts2, st2.driver_id = r.driver_id ∧
      st2.cumulative_time = r.cumulative_time := by
  obtain ⟨ps, -, h2, h3⟩ := stepLap_ok_spec cfg oracle ts plan L sts sts2 recs h
  intro r hr
  rw [h3] at hr
  obtain ⟨x, hxmem, hx⟩ := List.mem_map.mp hr
  refine ⟨x.1, ?_, ?_, ?_⟩
  · rw [h2]; exact List.mem_map_of_mem Prod.fst hxmem
  · rw [← hx]; rfl
  · rw [← hx]; rfl

/-- Each outgoing state of a projection lap is a re-ranked stepped driver
of the incoming field. -/
theorem stepLap_state_source (cfg : Config) (oracle : Oracle) (ts : TrackStatus)
    (plan : PitPlan) (L : ℕ) (sts sts2 : List DriverRaceState)
    (recs : List LapRecord)
    (h : stepLap cfg oracle ts plan L sts = .ok (sts2, recs)) :
    ∀ st2 ∈ sts2, ∃ st ∈ sts, ∃ p, stepDriver cfg oracle ts plan L st = .ok p ∧
      sameButPosition st2 p.1 := by
  obtain ⟨ps, hall, h2, -⟩ := stepLap_ok_spec cfg oracle ts plan L sts sts2 recs h
  intro st2 hst2
  rw [h2] at hst2
  obtain ⟨x, hxmem, hx⟩ := List.mem_map.mp hst2
  obtain ⟨y, hymem, hrel, -⟩ :=
    assignPos_forward 1 (List.insertionSort stepOrder ps) x hxmem
  have hyps : y ∈ ps := (List.perm_insertionSort stepOrder ps).mem_iff.mp hymem
  obtain ⟨st, hstmem, hstep⟩ := stepAll_ok_forward cfg oracle ts plan L sts ps hall y hyps
  exact ⟨st, hstmem, y, hstep, hx ▸ hrel⟩

/-- The outgoing states of a projection lap hold exactly the ranks `1..N`,
in sorted order. -/
theorem stepLap_state_positions (cfg : Config) (oracle : Oracle) (ts : TrackStatus)
    (plan : PitPlan) (L : ℕ) (sts sts2 : List DriverRaceState)
    (recs : List LapRecord)
    (h : stepLap cfg oracle ts plan L sts = .ok (sts2, recs)) :
    sts2.map (fun s => s.position) = List.range' 1 sts.length := by
  obtain ⟨ps, hall, h2, -⟩ := stepLap_ok_spec cfg oracle ts plan L sts sts2 recs h
  have hsort : (List.insertionSort stepOrder ps).length = ps.length :=
    (List.perm_insertionSort stepOrder ps).length_eq
  have hlen := stepAll_ok_length cfg oracle ts plan L sts ps hall
  rw [h2, List.map_map]
  have hpos := assignPos_positions 1 (List.insertionSort stepOrder ps)
  rw [hsort, hlen] at hpos
  exact hpos

/-- A projection lap permutes the driver ids of the field. -/
theorem stepLap_drivers_perm (cfg : Config) (oracle : Oracle) (ts : TrackStatus)
    (plan : PitPlan) (L : ℕ) (sts sts2 : List DriverRaceState)
    (recs : List LapRecord)
    (h : stepLap cfg oracle ts plan L sts = .ok (sts2, recs)) :
    List.Perm (sts2.map (fun s => s.driver_id)) (sts.map (fun s => s.driver_id)) := by
  obtain ⟨ps, hall, h2, -⟩ := stepLap_ok_spec cfg oracle ts plan L sts sts2 recs h
  rw [h2, List.map_map]
  have hdr := assignPos_drivers 1 (List.insertionSort stepOrder ps)
  have : ((fun s : DriverRaceState => s.driver_id) ∘ Prod.fst) =
      (fun x : DriverRaceState × ℤ => x.1.driver_id) := rfl
  rw [this, hdr, ← stepAll_ok_drivers cfg oracle ts plan L sts ps hall]
  exact (List.perm_insertionSort stepOrder ps).map _

/-- With a positive oracle and nonnegative constants, every outgoing state
of a projection lap strictly gained cumulative time over the incoming state
of the same driver slot. -/
theorem stepLap_cum_back (cfg : Config) (oracle : Oracle) (ts : TrackStatus)
    (plan : PitPlan) (L : ℕ) (sts sts2 : List DriverRaceState)
    (recs : List LapRecord) (hc : cfgNonneg cfg) (ho : oraclePos oracle ts)
    (h : stepLap cfg oracle ts plan L sts = .ok (sts2, recs)) :
    ∀ st2 ∈ sts2, ∃ st ∈ sts, st.driver_id = st2.driver_id ∧
      st.cumulative_time < st2.cumulative_time := by
  intro st2 hst2
  obtain ⟨st, hstmem, p, hstep, hrel⟩ :=
    stepLap_state_source cfg oracle ts plan L sts sts2 recs h st2 hst2
  obtain ⟨hlt, hdr⟩ := stepDriver_increase cfg oracle ts plan L st p hc ho hstep
  exact ⟨st, hstmem, by rw [hrel.1, hdr], by rw [hrel.2.2.1]; exact hlt⟩

/-- Every record a projection emits belongs to a lap of the simulated
window. -/
theorem projectAux_lap_bounds (cfg : Config) (oracle : Oracle) (ts : TrackStatus)
    (plan : PitPlan) :
    ∀ fuel L sts recs fin,
      projectAux cfg oracle ts plan fuel L sts = .ok (recs, fin) →
      ∀ r ∈ recs, L ≤ r.lap ∧ r.lap < L + fuel := by
  intro fuel
  induction fuel with
  | zero =>
    intro L sts recs fin h r hr
    simp only [projectAux] at h
    injection h with h1
    injection h1 with hrecs hfin
    subst hrecs
    cases hr
  | succ n ih =>
    intro L sts recs fin h r hr
    simp only [projectAux] at h
    split at h
    · exact Except.noConfusion h
    · rename_i sts2 recsL heq1
      split at h
      · exact Except.noConfusion h
      · rename_i rest fin2 heq2
        injection h with h1
        injection h1 with hrecs hfin
        subst hrecs
        rcases List.mem_append.mp hr with hr1 | hr2
        · have := stepLap_rec_lap cfg oracle ts plan L sts sts2 recsL heq1 r hr1
          omega
        · have := ih (L + 1) sts2 rest fin2 heq2 r hr2
          omega

/-- Position totality, lap by lap: for every simulated lap `M`, the
positions of the records of lap `M` are exactly `1..N`, for `N` the size of
the incoming field. -/
theorem projectAux_positions (cfg : Config) (oracle : Oracle) (ts : TrackStatus)
    (plan : PitPlan) :
    ∀ fuel L sts recs fin,
      projectAux cfg oracle ts plan fuel L sts = .ok (recs, fin) →
      ∀ M, L ≤ M → M < L + fuel →
        (recs.filter (fun r => r.lap == M)).map (fun r => r.position) =
          List.range' 1 sts.length := by
  intro fuel
  induction fuel with
  | zero =>
    intro L sts recs fin h M hM1 hM2
    omega
  | succ n ih =>
    intro L sts recs fin h M hM1 hM2
    simp only [projectAux] at h
    split at h
    · exact Except.noConfusion h
    · rename_i sts2 recsL heq1
      split at h
      · exact Except.noConfusion h
      · rename_i rest fin2 heq2
        injection h with h1
        injection h1 with hrecs hfin
        subst hrecs
        rw [List.filter_append, List.map_append]
        by_cases hML : M = L
        · subst hML
          have hfl : recsL.filter (fun r => r.lap == M) = recsL := by
            apply List.filter_eq_self.mpr
            intro r hr
            have := stepLap_rec_lap cfg oracle ts plan M sts sts2 recsL heq1 r hr
            simp [this]
          have hfr : rest.filter (fun r => r.lap == M) = [] := by
            rw [List.filter_eq_nil_iff]
            intro r hr
            have := projectAux_lap_bounds cfg oracle ts plan n (M + 1) sts2 rest
              fin2 heq2 r hr
            simp only [beq_iff_eq]
            omega
          rw [hfl, hfr, List.map_nil, List.append_nil]
          exact stepLap_positions cfg oracle ts plan M sts sts2 recsL heq1
        · have hfl : recsL.filter (fun r => r.lap == M) = [] := by
            rw [List.filter_eq_nil_iff]
            intro r hr
            have := stepLap_rec_lap cfg oracle ts plan L sts sts2 recsL heq1 r hr
            simp only [beq_iff_eq]
            omega
          rw [hfl, List.map_nil, List.nil_append]
          have hlen := (stepLap_lengths cfg oracle ts plan L sts sts2 recsL heq1).1
          rw [ih (L + 1) sts2 rest fin2 heq2 M (by omega) (by omega), hlen]

/-- Cumulative growth: with a positive oracle and nonnegative constants,
every record a projection emits strictly exceeds the cumulative time its
driver entered the projection with. -/
theorem projectAux_cum_mono (cfg : Config) (oracle : Oracle) (ts : TrackStatus)
    (plan : PitPlan) (hc : cfgNonneg cfg) (ho : oraclePos oracle ts) :
    ∀ fuel L sts recs fin,
      (sts.map (fun s => s.driver_id)).Nodup →
      projectAux cfg oracle ts plan fuel L sts = .ok (recs, fin) →
      ∀ r ∈ recs, ∀ st ∈ sts, st.driver_id = r.driver_id →
        st.cumulative_time < r.cumulative_time := by
  intro fuel
  induction fuel with
  | zero =>
    intro L sts recs fin hnd h r hr
    simp only [projectAux] at h
    injection h with h1
    injection h1 with hrecs hfin
    subst hrecs
    cases hr
  | succ n ih =>
    intro L sts recs fin hnd h r hr st hst hdr
    simp only [projectAux] at h
    split at h
    · exact Except.noConfusion h
    · rename_i sts2 recsL heq1
      split at h
      · exact Except.noConfusion h
      · rename_i rest fin2 heq2
        injection h with h1
        injection h1 with hrecs hfin
        subst hrecs
        have hinj := List.inj_on_of_nodup_map hnd
        rcases List.mem_append.mp hr with hr1 | hr2
        · obtain ⟨st0, hst0mem, p, hstep, hdr0, hcum0, -, -, -⟩ :=
            stepLap_rec_source cfg oracle ts plan L sts sts2 recsL heq1 r hr1
          obtain ⟨hlt0, hpdr⟩ :=
            stepDriver_increase cfg oracle ts plan L st0 p hc ho hstep
          have hst0dr : st0.driver_id = r.driver_id := by rw [hdr0, hpdr]
          have heqst : st = st0 := hinj hst hst0mem (by rw [hdr, ← hst0dr])
          rw [heqst, hcum0]
          rw [hdr0, hpdr] at hst0dr
          exact hlt0
        · have hperm := stepLap_drivers_perm cfg oracle ts plan L sts sts2 recsL heq1
          have hmem2 : st.driver_id ∈ sts2.map (fun s => s.driver_id) :=
            hperm.mem_iff.mpr (List.mem_map_of_mem _ hst)
          obtain ⟨st2, hst2mem, hst2dr⟩ := List.mem_map.mp hmem2
          obtain ⟨st3, hst3mem, hst3dr, hst3lt⟩ :=
            stepLap_cum_back cfg oracle ts plan L sts sts2 recsL hc ho heq1 st2 hst2mem
          have hst3eq : st3 = st := hinj hst3mem hst (by rw [hst3dr, hst2dr])
          have hnd2 : (sts2.map (fun s => s.driver_id)).Nodup := hperm.nodup_iff.mpr hnd
          have hrec := ih (L + 1) sts2 rest fin2 hnd2 heq2 r hr2 st2 hst2mem
            (by rw [hst2dr, hdr])
          calc st.cumulative_time < st2.cumulative_time := by
                rw [← hst3eq]; exact hst3lt
            _ < r.cumulative_time := hrec

/-- Record-level monotonicity: with a positive oracle, nonnegative
constants and distinct driver ids, whenever one record of a projection lies
on an earlier lap than another record of the same driver, its cumulative
time is strictly smaller. -/
theorem projectAux_records_mono (cfg : Config) (oracle : Oracle) (ts : TrackStatus)
    (plan : PitPlan) (hc : cfgNonneg cfg) (ho : oraclePos oracle ts) :
    ∀ fuel L sts recs fin,
      (sts.map (fun s => s.driver_id)).Nodup →
      projectAux cfg oracle ts plan fuel L sts = .ok (recs, fin) →
      ∀ r1 ∈ recs, ∀ r2 ∈ recs, r1.driver_id = r2.driver_id → r1.lap < r2.lap →
        r1.cumulative_time < r2.cumulative_time := by
  intro fuel
  induction fuel with
  | zero =>
    intro L sts recs fin hnd h r1 hr1
    simp only [projectAux] at h
    injection h with h1
    injection h1 with hrecs hfin
    subst hrecs
    cases hr1
  | succ n ih =>
    intro L sts recs fin hnd h r1 hr1 r2 hr2 hdr hlap
    simp only [projectAux] at h
    split at h
    · exact Except.noConfusion h
    · rename_i sts2 recsL heq1
      split at h
      · exact Except.noConfusion h
      · rename_i rest fin2 heq2
        injection h with h1
        injection h1 with hrecs hfin
        subst hrecs
        have hperm := stepLap_drivers_perm cfg oracle ts plan L sts sts2 recsL heq1
        have hnd2 : (sts2.map (fun s => s.driver_id)).Nodup := hperm.nodup_iff.mpr hnd
        rcases List.mem_append.mp hr1 with hm1 | hm1 <;>
          rcases List.mem_append.mp hr2 with hm2 | hm2
        · have e1 := stepLap_rec_lap cfg oracle ts plan L sts sts2 recsL heq1 r1 hm1
          have e2 := stepLap_rec_lap cfg oracle ts plan L sts sts2 recsL heq1 r2 hm2
          omega
        · obtain ⟨st2, hst2mem, hst2dr, hst2cum⟩ :=
            stepLap_rec_state cfg oracle ts plan L sts sts2 recsL heq1 r1 hm1
          have := projectAux_cum_mono cfg oracle ts plan hc ho n (L + 1) sts2 rest
            fin2 hnd2 heq2 r2 hm2 st2 hst2mem (by rw [hst2dr, hdr])
          rw [← hst2cum]
          exact this
        · have e1 := projectAux_lap_bounds cfg oracle ts plan n (L + 1) sts2 rest
            fin2 heq2 r1 hm1
          have e2 := stepLap_rec_lap cfg oracle ts plan L sts sts2 recsL heq1 r2 hm2
          omega
        · exact ih (L + 1) sts2 rest fin2 hnd2 heq2 r1 hm1 r2 hm2 hdr hlap

/-- Error propagation: a failed projection reports exactly the oracle call
that misbehaved — the recorded call made at the recorded driver and lap
(inside the simulated window) returned the recorded invalid value, and the
failure is never swallowed. -/
theorem projectAux_error_spec (cfg : Config) (oracle : Oracle) (ts : TrackStatus)
    (plan : PitPlan) :
    ∀ fuel L sts e,
      projectAux cfg oracle ts plan fuel L sts = .error e →
      oracle e.driver_id e.tyre_age e.compound ts e.position = e.value ∧
        invalidOracleValue e.value ∧ L ≤ e.lap ∧ e.lap < L + fuel := by
  intro fuel
  induction fuel with
  | zero =>
    intro L sts e h
    simp only [projectAux] at h
    exact Except.noConfusion h
  | succ n ih =>
    intro L sts e h
    simp only [projectAux] at h
    split at h
    · rename_i heq1
      injection h with h1
      subst h1
      obtain ⟨st, -, hstep⟩ :=
        stepLap_error_spec cfg oracle ts plan L sts _ heq1
      obtain ⟨h1, h2, h3, -⟩ :=
        stepDriver_error_spec cfg oracle ts plan L st _ hstep
      exact ⟨h1, h2, by omega, by omega⟩
    · rename_i sts2 recsL heq1
      split at h
      · rename_i heq2
        injection h with h1
        subst h1
        obtain ⟨h1, h2, h3, h4⟩ := ih (L + 1) sts2 _ heq2
        exact ⟨h1, h2, by omega, by omega⟩
      · exact Except.noConfusion h

/-- No clamping: every record of a successful projection carries a lap time
assembled, unmodified, from a valid (finite, nonnegative) oracle answer for
that driver at that tyre age, plus the warm-up penalty and the pit loss
dictated by the plan. -/
theorem projectAux_ok_records (cfg : Config) (oracle : Oracle) (ts : TrackStatus)
    (plan : PitPlan) :
    ∀ fuel L sts recs fin,
      projectAux cfg oracle ts plan fuel L sts = .ok (recs, fin) →
      ∀ r ∈ recs, ∃ c p b, oracle r.driver_id r.tyre_age c ts p = some b ∧
        0 ≤ b ∧
        r.lap_time = b +
          lapPenalty cfg r.tyre_age (decide (r.lap ∈ plan r.driver_id)) +
          (if r.lap ∈ plan r.driver_id then pitLossFor cfg ts else 0) := by
  intro fuel
  induction fuel with
  | zero =>
    intro L sts recs fin h r hr
    simp only [projectAux] at h
    injection h with h1
    injection h1 with hrecs hfin
    subst hrecs
    cases hr
  | succ n ih =>
    intro L sts recs fin h r hr
    simp only [projectAux] at h
    split at h
    · exact Except.noConfusion h
    · rename_i sts2 recsL heq1
      split at h
      · exact Except.noConfusion h
      · rename_i rest fin2 heq2
        injection h with h1
        injection h1 with hrecs hfin
        subst hrecs
        rcases List.mem_append.mp hr with hm | hm
        · obtain ⟨st, -, p, hstep, hdr, -, hage, hlt, hlap⟩ :=
            stepLap_rec_source cfg oracle ts plan L sts sts2 recsL heq1 r hm
          obtain ⟨b, hb, hb0, hp2, hp1⟩ :=
            stepDriver_ok_spec cfg oracle ts plan L st p hstep
          have hdr2 : r.driver_id = st.driver_id := by rw [hdr, hp1]
          have hage2 : r.tyre_age =
              (if L ∈ plan st.driver_id then 0 else st.tyre_age + 1) := by
            rw [hage, hp1]
          refine ⟨st.compound, st.position, b, ?_, hb0, ?_⟩
          · rw [hdr2, hage2]
            exact hb
          · rw [hlt, hp2, hage2, hlap, hdr2]
        · exact ih (L + 1) sts2 rest fin2 heq2 r hm

/-- Pit accounting: the final pit count of every driver equals the starting
count plus the number of simulated laps on which the plan called that
driver in. -/
theorem projectAux_pit_count (cfg : Config) (oracle : Oracle) (ts : TrackStatus)
    (plan : PitPlan) :
    ∀ fuel L sts recs fin,
      projectAux cfg oracle ts plan fuel L sts = .ok (recs, fin) →
      ∀ stF ∈ fin, ∃ st ∈ sts, st.driver_id = stF.driver_id ∧
        stF.pit_count = st.pit_count +
          (List.range' L fuel).countP (fun M => decide (M ∈ plan st.driver_id)) := by
  intro fuel
  induction fuel with
  | zero =>
    intro L sts recs fin h stF hstF
    simp only [projectAux] at h
    injection h with h1
    injection h1 with hrecs hfin
    subst hfin
    exact ⟨stF, hstF, rfl, by simp⟩
  | succ n ih =>
    intro L sts recs fin h stF hstF
    simp only [projectAux] at h
    split at h
    · exact Except.noConfusion h
    · rename_i sts2 recsL heq1
      split at h
      · exact Except.noConfusion h
      · rename_i rest fin2 heq2
        injection h with h1
        injection h1 with hrecs hfin
        subst hfin
        obtain ⟨st2, hst2mem, hst2dr, hst2pc⟩ := ih (L + 1) sts2 rest fin2 heq2 stF hstF
        obtain ⟨st, hstmem, p, hstep, hrel⟩ :=
          stepLap_state_source cfg oracle ts plan L sts sts2 recsL heq1 st2 hst2mem
        obtain ⟨b, -, -, -, hp1⟩ := stepDriver_ok_spec cfg oracle ts plan L st p hstep
        have hdr : st.driver_id = st2.driver_id := by rw [hrel.1, hp1]
        have hpc : st2.pit_count =
            st.pit_count + (if L ∈ plan st.driver_id then 1 else 0) := by
          rw [hrel.2.2.2.2.2, hp1]
        refine ⟨st, hstmem, by rw [hdr, hst2dr], ?_⟩
        have hcd : (fun M => decide (M ∈ plan st2.driver_id)) =
            (fun M => decide (M ∈ plan st.driver_id)) := by rw [hdr]
        rw [hst2pc, hcd, hpc, List.range'_succ L n 1, List.countP_cons]
        by_cases hmem : L ∈ plan st.driver_id
        · rw [if_pos hmem, if_pos (decide_eq_true hmem)]
          omega
        · rw [if_neg hmem, if_neg (by simpa using hmem)]
          omega

/-- After at least one simulated lap, the final states of a projection hold
exactly the ranks `1..N`. -/
theorem projectAux_fin_positions (cfg : Config) (oracle : Oracle) (ts : TrackStatus)
    (plan : PitPlan) :
    ∀ fuel L sts recs fin,
      projectAux cfg oracle ts plan fuel L sts = .ok (recs, fin) →
      1 ≤ fuel →
      fin.map (fun s => s.position) = List.range' 1 sts.length := by
  intro fuel
  induction fuel with
  | zero =>
    intro L sts recs fin h hfuel
    omega
  | succ n ih =>
    intro L sts recs fin h hfuel
    simp only [projectAux] at h
    split at h
    · exact Except.noConfusion h
    · rename_i sts2 recsL heq1
      split at h
      · exact Except.noConfusion h
      · rename_i rest fin2 heq2
        injection h with h1
        injection h1 with hrecs hfin
        subst hfin
        cases n with
        | zero =>
          simp only [projectAux] at heq2
          injection heq2 with hh
          injection hh with hh1 hh2
          rw [← hh2]
          exact stepLap_state_positions cfg oracle ts plan L sts sts2 recsL heq1
        | succ m =>
          have hlen := (stepLap_lengths cfg oracle ts plan L sts sts2 recsL heq1).1
          rw [ih (L + 1) sts2 rest fin2 heq2 (by omega), hlen]

/-- Seeded race states are one per requested driver. -/
theorem seedStates_length : ∀ (k : ℕ) (ds : List DriverId),
    (seedStates k ds).length = ds.length := by
  intro k ds
  induction ds generalizing k with
  | nil => rfl
  | cons d rest ih => simp only [seedStates, List.length_cons, ih]

/-- Seeded race states start with zero pit stops. -/
theorem seedStates_pit_count : ∀ (k : ℕ) (ds : List DriverId)
    (st : DriverRaceState), st ∈ seedStates k ds → st.pit_count = 0 := by
  intro k ds
  induction ds generalizing k with
  | nil => intro st h; cases h
  | cons d rest ih =>
    intro st h
    simp only [seedStates] at h
    rcases h with _ | h2
    · rfl
    · exact ih (k + 1) st (by assumption)

/-- Counting the in-range laps of a duplicate-free plan recovers its
length. -/
theorem countP_mem_range' (lst : List ℕ) (total : ℕ) (hnd : lst.Nodup)
    (hin : ∀ M ∈ lst, 1 ≤ M ∧ M ≤ total) :
    (List.range' 1 total).countP (fun M => decide (M ∈ lst)) = lst.length := by
  rw [List.countP_eq_length_filter]
  have hA : ((List.range' 1 total).filter (fun M => decide (M ∈ lst))).Nodup :=
    (List.nodup_range' 1 total).filter _
  have hAsub : ((List.range' 1 total).filter (fun M => decide (M ∈ lst))) ⊆ lst := by
    intro x hx
    have := (List.mem_filter.mp hx).2
    exact of_decide_eq_true this
  have hlsub : lst ⊆ ((List.range' 1 total).filter (fun M => decide (M ∈ lst))) := by
    intro x hx
    refine List.mem_filter.mpr ⟨?_, by simpa using hx⟩
    refine List.mem_range'_1.mpr ⟨(hin x hx).1, ?_⟩
    have := (hin x hx).2
    omega
  have p1 := List.subperm_of_subset hA hAsub
  have p2 := List.subperm_of_subset hnd hlsub
  exact (p1.antisymm p2).length_eq

/-- Helper for C5: counting the candidate laps that do not run past the end
of the race. -/
theorem length_candidate_aux (k current total : ℕ) :
    (((List.range k).map (fun i => current + i)).filter
      (fun c => c ≤ total)).length = min k (total + 1 - current) := by
  induction k with
  | zero => simp
  | succ n ih =>
    rw [List.range_succ, List.map_append, List.filter_append, List.length_append,
      ih, List.map_cons, List.map_nil]
    by_cases h : current + n ≤ total
    · rw [List.filter_cons_of_pos (by simpa using h), List.filter_nil]
      simp only [List.length_cons, List.length_nil]
      omega
    · rw [List.filter_cons_of_neg (by simpa using h), List.filter_nil]
      simp only [List.length_nil]
      omega

/-- C5: the UndercutEvaluator evaluates one scenario per candidate lap in
the window `current_lap .. current_lap + 9` — exactly 10 when at least 10
laps remain, and in general `min 10 (total_laps + 1 - current_lap)`,
fewer than 10 only when fewer laps remain before the race ends. -/
theorem c5_scenario_count (cfg : Config) (oracle : Oracle) (ts : TrackStatus)
    (atk dfd : DriverId) (gap : ℤ) (ageA ageD : ℕ) (compA compD : Compound)
    (currentLap totalLaps : ℕ) :
    (undercutScenarios cfg oracle ts atk dfd gap ageA ageD compA compD
        currentLap totalLaps).length = min 10 (totalLaps + 1 - currentLap) ∧
    (currentLap + 9 ≤ totalLaps →
      (undercutScenarios cfg oracle ts atk dfd gap ageA ageD compA compD
        currentLap totalLaps).length = 10) := by
  have hlen : (undercutScenarios cfg oracle ts atk dfd gap ageA ageD compA compD
      currentLap totalLaps).length = min 10 (totalLaps + 1 - currentLap) := by
    unfold undercutScenarios candidateLaps
    rw [List.length_map]
    exact length_candidate_aux 10 currentLap totalLaps
  exact ⟨hlen, fun hle => by rw [hlen]; omega⟩

/-- Witness for C5 at the frontend's default scenario (lap 25 of 57): ten
scenarios are evaluated. -/
theorem c5_scenario_count_witness :
    (undercutScenarios cfgDefault oracleFlat .green "VER" "LEC" 20 15 12
      .soft .medium 25 57).length = 10 :=
  (c5_scenario_count cfgDefault oracleFlat .green "VER" "LEC" 20 15 12
    .soft .medium 25 57).2 (by norm_num)

/-- C3: in the spec's undercut scenario — gap 2.0 s, attacker pits 3 laps
before the defender reacts, pit loss 22.0 s, warm-up 0.5 s/lap over 2 laps,
flat 90.0 s oracle — the reported attacker out-lap is
90.0 + 22.0 + 0.5·2 = 113.0 s (1130 tenths), matching the per-lap formula
`lapTime = base + lapPenalty + pitLoss`. -/
theorem c3_attacker_outlap :
    evalUndercutOutlap cfgDefault oracleFlat .green "VER" "LEC" 20 15 12
        .soft .medium 25 57 = some 1130 ∧
    (1130 : ℤ) = 900 + 220 + 5 * 2 := by
  exact ⟨by decide, by decide⟩

/-- C1: position totality — in every successful projection, at every
simulated lap the positions assigned to the records of that lap are exactly
`1..N` for the `N` drivers of the run, with no duplicate ranks; in
particular, with at least one driver, exactly one record of each lap holds
position 1, so a lookup of the driver at position 1 in a final
classification finds exactly one driver. -/
theorem c1_position_totality :
    (∀ (cfg : Config) (oracle : Oracle) (ts : TrackStatus) (plan : PitPlan)
      (states : List DriverRaceState) (fromLap toLap : ℕ)
      (out : List LapRecord) (L : ℕ),
      project cfg oracle ts plan states fromLap toLap = .ok out →
      fromLap ≤ L → L ≤ toLap →
      (out.filter (fun r => r.lap == L)).map (fun r => r.position) =
        List.range' 1 states.length ∧
      (1 ≤ states.length →
        ((out.filter (fun r => r.lap == L)).filter
          (fun r => r.position == 1)).length = 1)) ∧
    (∀ (cfg : Config) (oracle : Oracle) (totalLaps : ℕ)
      (drivers : List DriverId) (plan : PitPlan) (rout : RaceSimOutput),
      raceSimulator cfg oracle totalLaps drivers plan = .ok rout →
      1 ≤ totalLaps → 1 ≤ drivers.length →
      (rout.final_classification.filter (fun pr => pr.2 == 1)).length = 1) := by
  constructor
  · intro cfg oracle ts plan states fromLap toLap out L hok hge hle
    simp only [project] at hok
    split at hok
    · exact Except.noConfusion hok
    · rename_i recs fin heq
      injection hok with hh
      subst hh
      have hpos := projectAux_positions cfg oracle ts plan (toLap + 1 - fromLap)
        fromLap states recs fin heq L hge (by omega)
      refine ⟨hpos, fun hN => ?_⟩
      have hcount : ((recs.filter (fun r => r.lap == L)).filter
          (fun r => r.position == 1)).length =
          ((recs.filter (fun r => r.lap == L)).map
            (fun r => r.position)).count 1 := by
        rw [List.count, List.countP_map, ← List.countP_eq_length_filter]
        rfl
      rw [hcount, hpos]
      exact List.count_eq_one_of_mem (List.nodup_range' _ _)
        (List.mem_range'_1.mpr ⟨le_refl 1, by omega⟩)
  · intro cfg oracle totalLaps drivers plan rout hok h1 h2
    simp only [raceSimulator] at hok
    split at hok
    · exact Except.noConfusion hok
    · rename_i recs fin heq
      injection hok with hh
      subst hh
      have hfin := projectAux_fin_positions cfg oracle .green plan totalLaps 1
        (seedStates 1 drivers) recs fin heq h1
      rw [seedStates_length] at hfin
      simp only
      have hcount : ((fin.map
          (fun st => (st.driver_id, st.position))).filter
            (fun pr => pr.2 == 1)).length =
          (fin.map (fun s => s.position)).count 1 := by
        rw [List.count, List.countP_map, ← List.countP_eq_length_filter,
          List.countP_map]
        rfl
      rw [hcount, hfin]
      exact List.count_eq_one_of_mem (List.nodup_range' _ _)
        (List.mem_range'_1.mpr ⟨le_refl 1, by omega⟩)

/-- Witness for C1 on concrete runs: lap 1 of the two-driver projection
gets the position list `[1, 2]` with exactly one record at position 1, and
the concrete simulated race has exactly one driver classified first. -/
theorem c1_position_totality_witness :
    ((outW.filter (fun r => r.lap == 1)).map (fun r => r.position) =
      List.range' 1 statesW.length ∧
    ((outW.filter (fun r => r.lap == 1)).filter
      (fun r => r.position == 1)).length = 1) ∧
    (outR8.final_classification.filter (fun pr => pr.2 == 1)).length = 1 := by
  have h := c1_position_totality.1 cfgDefault oracleFlat .green (fun _ => [])
    statesW 1 2 outW 1 (by decide) (by decide) (by decide)
  have h2 := c1_position_totality.2 cfgDefault oracleFlat 3 ["VER"]
    (fun _ => [2]) outR8 (by decide) (by decide) (by decide)
  exact ⟨⟨h.1, h.2 (by decide)⟩, h2⟩

/-- C4: monotonic time — with an oracle that only returns finite positive
lap times (and nonnegative tuning constants, over a field of distinct
drivers), every driver's cumulative time is strictly increasing lap over
lap throughout a successful projection. -/
theorem c4_cumulative_strictly_increasing (cfg : Config) (oracle : Oracle)
    (ts : TrackStatus) (plan : PitPlan) (states : List DriverRaceState)
    (fromLap toLap : ℕ) (out : List LapRecord)
    (hc : cfgNonneg cfg) (ho : oraclePos oracle ts)
    (hnd : (states.map (fun s => s.driver_id)).Nodup)
    (hok : project cfg oracle ts plan states fromLap toLap = .ok out)
    (r1 r2 : LapRecord) (h1 : r1 ∈ out) (h2 : r2 ∈ out)
    (hdr : r1.driver_id = r2.driver_id) (hlap : r1.lap < r2.lap) :
    r1.cumulative_time < r2.cumulative_time := by
  simp only [project] at hok
  split at hok
  · exact Except.noConfusion hok
  · rename_i recs fin heq
    injection hok with hh
    subst hh
    exact projectAux_records_mono cfg oracle ts plan hc ho _ fromLap states
      recs fin hnd heq r1 h1 r2 h2 hdr hlap

/-- Witness for C4 on the concrete two-driver run: the VER record of lap 1
has a strictly smaller cumulative time than the VER record of lap 2. -/
theorem c4_cumulative_strictly_increasing_witness :
    (⟨1, "VER", 905, 905, 1, 1⟩ : LapRecord).cumulative_time <
      (⟨2, "VER", 900, 1805, 1, 2⟩ : LapRecord).cumulative_time :=
  c4_cumulative_strictly_increasing cfgDefault oracleFlat .green (fun _ => [])
    statesW 1 2 outW ⟨by decide, by decide, by decide⟩
    (by intro d a c p b h; injection h with h1; omega)
    (by decide) (by decide)
    ⟨1, "VER", 905, 905, 1, 1⟩ ⟨2, "VER", 900, 1805, 1, 2⟩
    (by decide) (by decide) (by decide) (by decide)

/-- C6: an oracle call that returns a non-finite or negative value makes
the projection abort with a `ProjectionError` identifying the offending
driver and lap (and the very call and value), never silently recovered; and
in a successful projection no value was clamped — every emitted lap time is
assembled from a valid oracle answer by the per-lap formula. -/
theorem c6_oracle_failure_surfaced (cfg : Config) (oracle : Oracle)
    (ts : TrackStatus) (plan : PitPlan) (states : List DriverRaceState)
    (fromLap toLap : ℕ) :
    (∀ e, project cfg oracle ts plan states fromLap toLap = .error e →
      oracle e.driver_id e.tyre_age e.compound ts e.position = e.value ∧
        invalidOracleValue e.value ∧ fromLap ≤ e.lap ∧ e.lap ≤ toLap) ∧
    (∀ out, project cfg oracle ts plan states fromLap toLap = .ok out →
      ∀ r ∈ out, ∃ c p b, oracle r.driver_id r.tyre_age c ts p = some b ∧
        0 ≤ b ∧
        r.lap_time = b +
          lapPenalty cfg r.tyre_age (decide (r.lap ∈ plan r.driver_id)) +
          (if r.lap ∈ plan r.driver_id then pitLossFor cfg ts else 0)) := by
  constructor
  · intro e he
    simp only [project] at he
    split at he
    · rename_i heq
      injection he with h1
      subst h1
      have h := projectAux_error_spec cfg oracle ts plan (toLap + 1 - fromLap)
        fromLap states _ heq
      exact ⟨h.1, h.2.1, h.2.2.1, by omega⟩
    · exact Except.noConfusion he
  · intro out hout r hr
    simp only [project] at hout
    split at hout
    · exact Except.noConfusion hout
    · rename_i recs fin heq
      injection hout with h1
      subst h1
      exact projectAux_ok_records cfg oracle ts plan _ fromLap states recs fin
        heq r hr

/-- Witness for C6: a stub oracle that returns a non-finite value for LEC
makes the witness projection abort, and the reported error names the
offending call and an invalid value. -/
theorem c6_oracle_failure_surfaced_witness :
    invalidOracleValue eW.value ∧
      oracleBadW eW.driver_id eW.tyre_age eW.compound .green eW.position =
        eW.value := by
  have h := (c6_oracle_failure_surfaced cfgDefault oracleBadW .green
    (fun _ => []) statesW 1 2).1 eW (by decide)
  exact ⟨h.2.1, h.1⟩

/-- Position assignment never writes a rank below its starting rank. -/
theorem assignPos_pos_lb : ∀ (k : ℕ) (l : List (DriverRaceState × ℤ)),
    ∀ x ∈ assignPos k l, k ≤ x.1.position := by
  intro k l
  induction l generalizing k with
  | nil => intro x hx; cases hx
  | cons p rest ih =>
    obtain ⟨st, lt⟩ := p
    intro x hx
    simp only [assignPos] at hx
    rcases hx with _ | hx2
    · exact le_refl k
    · exact le_trans (Nat.le_succ k) (ih (k + 1) x (by assumption))

/-- Over a pairwise-sorted list, the ranks written by position assignment
respect the sort order: a smaller rank means a smaller cumulative time, or
an equal one with a driver id at most the other. -/
theorem assignPos_rank : ∀ (k : ℕ) (l : List (DriverRaceState × ℤ)),
    List.Pairwise stepOrder l →
    ∀ a ∈ assignPos k l, ∀ b ∈ assignPos k l, a.1.position < b.1.position →
      a.1.cumulative_time < b.1.cumulative_time ∨
        (a.1.cumulative_time = b.1.cumulative_time ∧
          a.1.driver_id ≤ b.1.driver_id) := by
  intro k l
  induction l generalizing k with
  | nil => intro hpw a ha; cases ha
  | cons p rest ih =>
    obtain ⟨st, lt⟩ := p
    intro hpw a ha b hb hab
    rcases List.pairwise_cons.mp hpw with ⟨hhead, htail⟩
    simp only [assignPos] at ha hb
    rcases List.mem_cons.mp ha with haeq | ha2
    · rcases List.mem_cons.mp hb with hbeq | hb2
      · rw [haeq, hbeq] at hab
        exact absurd hab (lt_irrefl _)
      · subst haeq
        obtain ⟨y, hymem, hyrel, -⟩ := assignPos_forward (k + 1) rest b hb2
        have hrel := hhead y hymem
        unfold stepOrder at hrel
        rcases hrel with h1 | h2
        · left
          rw [hyrel.2.2.1]
          exact h1
        · right
          constructor
          · rw [hyrel.2.2.1]
            exact h2.1
          · rw [hyrel.1]
            exact h2.2
    · rcases List.mem_cons.mp hb with hbeq | hb2
      · subst hbeq
        have hlb := assignPos_pos_lb (k + 1) rest a ha2
        have hbpos :
            (({ st with position := k }, lt) : DriverRaceState × ℤ).1.position
              = k := rfl
        omega
      · exact ih (k + 1) htail a ha2 b hb2 hab

/-- The outgoing states of a projection lap are ranked by cumulative time,
ties broken by driver id. -/
theorem stepLap_rank (cfg : Config) (oracle : Oracle) (ts : TrackStatus)
    (plan : PitPlan) (L : ℕ) (sts sts2 : List DriverRaceState)
    (recs : List LapRecord)
    (h : stepLap cfg oracle ts plan L sts = .ok (sts2, recs)) :
    ∀ a ∈ sts2, ∀ b ∈ sts2, a.position < b.position →
      a.cumulative_time < b.cumulative_time ∨
        (a.cumulative_time = b.cumulative_time ∧ a.driver_id ≤ b.driver_id) := by
  obtain ⟨ps, -, h2, -⟩ := stepLap_ok_spec cfg oracle ts plan L sts sts2 recs h
  intro a ha b hb hab
  rw [h2] at ha hb
  obtain ⟨x, hxmem, hx⟩ := List.mem_map.mp ha
  obtain ⟨y, hymem, hy⟩ := List.mem_map.mp hb
  have hpw : List.Pairwise stepOrder (List.insertionSort stepOrder ps) :=
    List.sorted_insertionSort stepOrder ps
  have hr := assignPos_rank 1 (List.insertionSort stepOrder ps) hpw x hxmem
    y hymem (by rw [hx, hy]; exact hab)
  rw [← hx, ← hy]
  exact hr

/-- The records of a projection lap list the same driver ids, in order, as
its outgoing states. -/
theorem stepLap_rec_drivers (cfg : Config) (oracle : Oracle) (ts : TrackStatus)
    (plan : PitPlan) (L : ℕ) (sts sts2 : List DriverRaceState)
    (recs : List LapRecord)
    (h : stepLap cfg oracle ts plan L sts = .ok (sts2, recs)) :
    recs.map (fun r => r.driver_id) = sts2.map (fun s => s.driver_id) := by
  obtain ⟨ps, -, h2, h3⟩ := stepLap_ok_spec cfg oracle ts plan L sts sts2 recs h
  rw [h2, h3, List.map_map, List.map_map]
  rfl

/-- Each outgoing state of a projection lap has a record of the same driver
carrying the very lap time its step produced. -/
theorem stepLap_state_record (cfg : Config) (oracle : Oracle) (ts : TrackStatus)
    (plan : PitPlan) (L : ℕ) (sts sts2 : List DriverRaceState)
    (recs : List LapRecord)
    (h : stepLap cfg oracle ts plan L sts = .ok (sts2, recs)) :
    ∀ st2 ∈ sts2, ∃ r ∈ recs, r.driver_id = st2.driver_id ∧
      ∃ st ∈ sts, ∃ p, stepDriver cfg oracle ts plan L st = .ok p ∧
        sameButPosition st2 p.1 ∧ r.lap_time = p.2 := by
  obtain ⟨ps, hall, h2, h3⟩ := stepLap_ok_spec cfg oracle ts plan L sts sts2 recs h
  intro st2 hst2
  rw [h2] at hst2
  obtain ⟨x, hxmem, hx⟩ := List.mem_map.mp hst2
  refine ⟨mkRecord L x, ?_, ?_, ?_⟩
  · rw [h3]
    exact List.mem_map_of_mem _ hxmem
  · rw [← hx]
    rfl
  · obtain ⟨y, hymem, hyrel, hysnd⟩ :=
      assignPos_forward 1 (List.insertionSort stepOrder ps) x hxmem
    have hyps : y ∈ ps := (List.perm_insertionSort stepOrder ps).mem_iff.mp hymem
    obtain ⟨st, hstmem, hstep⟩ :=
      stepAll_ok_forward cfg oracle ts plan L sts ps hall y hyps
    refine ⟨st, hstmem, y, hstep, ?_, hysnd⟩
    rw [← hx]
    exact hyrel

/-- In a record list with pairwise-distinct driver ids, filtering by one
present driver id yields exactly that driver's record. -/
theorem filter_records_single : ∀ (recs : List LapRecord) (d : DriverId),
    (recs.map (fun r => r.driver_id)).Nodup →
    ∀ r0 ∈ recs, r0.driver_id = d →
      recs.filter (fun r => r.driver_id == d) = [r0] := by
  intro recs d
  induction recs with
  | nil => intro hnd r0 h0; cases h0
  | cons r tail ih =>
    intro hnd r0 h0 hd
    rw [List.map_cons, List.nodup_cons] at hnd
    obtain ⟨hnotmem, htailnd⟩ := hnd
    rcases List.mem_cons.mp h0 with h0eq | h0tail
    · subst h0eq
      rw [List.filter_cons, if_pos (by simp [hd])]
      have hni : tail.filter (fun r2 => r2.driver_id == d) = [] := by
        rw [List.filter_eq_nil_iff]
        intro r2 hr2
        simp only [beq_iff_eq]
        intro hcontra
        exact hnotmem (List.mem_map.mpr ⟨r2, hr2, by rw [hcontra, hd]⟩)
      rw [hni]
    · have hne : ¬ ((fun r2 : LapRecord => r2.driver_id == d) r) = true := by
        simp only [beq_iff_eq]
        intro hcontra
        exact hnotmem (List.mem_map.mpr ⟨r0, h0tail, by rw [hd, hcontra]⟩)
      rw [List.filter_cons, if_neg hne]
      exact ih htailnd r0 h0tail hd

/-- After at least one simulated lap, the final states of a projection are
ranked by cumulative time, ties broken by driver id. -/
theorem projectAux_fin_rank (cfg : Config) (oracle : Oracle) (ts : TrackStatus)
    (plan : PitPlan) :
    ∀ fuel L sts recs fin,
      projectAux cfg oracle ts plan fuel L sts = .ok (recs, fin) →
      1 ≤ fuel →
      ∀ a ∈ fin, ∀ b ∈ fin, a.position < b.position →
        a.cumulative_time < b.cumulative_time ∨
          (a.cumulative_time = b.cumulative_time ∧
            a.driver_id ≤ b.driver_id) := by
  intro fuel
  induction fuel with
  | zero =>
    intro L sts recs fin h hfuel
    omega
  | succ n ih =>
    intro L sts recs fin h hfuel
    simp only [projectAux] at h
    split at h
    · exact Except.noConfusion h
    · rename_i sts2 recsL heq1
      split at h
      · exact Except.noConfusion h
      · rename_i rest fin2 heq2
        injection h with h1
        injection h1 with hrecs hfin
        subst hfin
        cases n with
        | zero =>
          simp only [projectAux] at heq2
          injection heq2 with hh
          injection hh with hh1 hh2
          rw [← hh2]
          exact stepLap_rank cfg oracle ts plan L sts sts2 recsL heq1
        | succ m =>
          exact ih (L + 1) sts2 rest fin2 heq2 (by omega)

/-- Seeded race states list exactly the requested driver ids, in order. -/
theorem seedStates_drivers : ∀ (k : ℕ) (ds : List DriverId),
    (seedStates k ds).map (fun s => s.driver_id) = ds := by
  intro k ds
  induction ds generalizing k with
  | nil => rfl
  | cons d rest ih => simp only [seedStates, List.map_cons, ih]

/-- Seeded race states start on a fresh tyre set. -/
theorem seedStates_tyre_age : ∀ (k : ℕ) (ds : List DriverId)
    (st : DriverRaceState), st ∈ seedStates k ds → st.tyre_age = 0 := by
  intro k ds
  induction ds generalizing k with
  | nil => intro st h; cases h
  | cons d rest ih =>
    intro st h
    simp only [seedStates] at h
    rcases List.mem_cons.mp h with heq | h2
    · rw [heq]
    · exact ih (k + 1) st h2

/-- Seeded race states start with zero cumulative time. -/
theorem seedStates_cum : ∀ (k : ℕ) (ds : List DriverId)
    (st : DriverRaceState), st ∈ seedStates k ds → st.cumulative_time = 0 := by
  intro k ds
  induction ds generalizing k with
  | nil => intro st h; cases h
  | cons d rest ih =>
    intro st h
    simp only [seedStates] at h
    rcases List.mem_cons.mp h with heq | h2
    · rw [heq]
    · exact ih (k + 1) st h2

/-- With a plan that never pits anyone, tyre age tracks the lap number:
every record of a projection started on ages one below the first lap
reports `tyre_age = lap`. -/
theorem projectAux_noPit_age (cfg : Config) (oracle : Oracle) (ts : TrackStatus)
    (plan : PitPlan) (hplan : ∀ d, plan d = []) :
    ∀ fuel L sts recs fin,
      projectAux cfg oracle ts plan fuel L sts = .ok (recs, fin) →
      (∀ st ∈ sts, st.tyre_age + 1 = L) →
      ∀ r ∈ recs, r.tyre_age = r.lap := by
  intro fuel
  induction fuel with
  | zero =>
    intro L sts recs fin h hage r hr
    simp only [projectAux] at h
    injection h with h1
    injection h1 with hrecs hfin
    subst hrecs
    cases hr
  | succ n ih =>
    intro L sts recs fin h hage r hr
    simp only [projectAux] at h
    split at h
    · exact Except.noConfusion h
    · rename_i sts2 recsL heq1
      split at h
      · exact Except.noConfusion h
      · rename_i rest fin2 heq2
        injection h with h1
        injection h1 with hrecs hfin
        subst hrecs
        have hnopit : ∀ st : DriverRaceState, ¬ L ∈ plan st.driver_id := by
          intro st
          rw [hplan]
          exact List.not_mem_nil L
        rcases List.mem_append.mp hr with hm | hm
        · obtain ⟨st, hstmem, p, hstep, -, -, hrage, -, hrlap⟩ :=
            stepLap_rec_source cfg oracle ts plan L sts sts2 recsL heq1 r hm
          obtain ⟨b, -, -, -, hp1⟩ :=
            stepDriver_ok_spec cfg oracle ts plan L st p hstep
          have : p.1.tyre_age = st.tyre_age + 1 := by
            rw [hp1]
            simp only [if_neg (hnopit st)]
          rw [hrage, this, hage st hstmem, hrlap]
        · refine ih (L + 1) sts2 rest fin2 heq2 ?_ r hm
          intro st2 hst2
          obtain ⟨st, hstmem, p, hstep, hrel⟩ :=
            stepLap_state_source cfg oracle ts plan L sts sts2 recsL heq1 st2 hst2
          obtain ⟨b, -, -, -, hp1⟩ :=
            stepDriver_ok_spec cfg oracle ts plan L st p hstep
          have hpage : p.1.tyre_age = st.tyre_age + 1 := by
            rw [hp1]
            simp only [if_neg (hnopit st)]
          rw [hrel.2.2.2.2.1, hpage, hage st hstmem]

/-- Over a field of distinct drivers, every final cumulative time of a
projection is the starting cumulative time plus the sum of that driver's
emitted lap times. -/
theorem projectAux_cum_sum (cfg : Config) (oracle : Oracle) (ts : TrackStatus)
    (plan : PitPlan) :
    ∀ fuel L sts recs fin,
      (sts.map (fun s => s.driver_id)).Nodup →
      projectAux cfg oracle ts plan fuel L sts = .ok (recs, fin) →
      ∀ stF ∈ fin, ∃ st ∈ sts, st.driver_id = stF.driver_id ∧
        stF.cumulative_time = st.cumulative_time +
          ((recs.filter (fun r => r.driver_id == stF.driver_id)).map
            (fun r => r.lap_time)).sum := by
  intro fuel
  induction fuel with
  | zero =>
    intro L sts recs fin hnd h stF hstF
    simp only [projectAux] at h
    injection h with h1
    injection h1 with hrecs hfin
    subst hrecs
    subst hfin
    exact ⟨stF, hstF, rfl, by simp⟩
  | succ n ih =>
    intro L sts recs fin hnd h stF hstF
    simp only [projectAux] at h
    split at h
    · exact Except.noConfusion h
    · rename_i sts2 recsL heq1
      split at h
      · exact Except.noConfusion h
      · rename_i rest fin2 heq2
        injection h with h1
        injection h1 with hrecs hfin
        subst hrecs
        subst hfin
        have hperm := stepLap_drivers_perm cfg oracle ts plan L sts sts2 recsL heq1
        have hnd2 : (sts2.map (fun s => s.driver_id)).Nodup := hperm.nodup_iff.mpr hnd
        obtain ⟨st2, hst2mem, hdr2, hsum2⟩ := ih (L + 1) sts2 rest fin2 hnd2 heq2 stF hstF
        obtain ⟨r0, hr0mem, hr0d, st, hstmem, p, hstep, hrel, hr0lt⟩ :=
          stepLap_state_record cfg oracle ts plan L sts sts2 recsL heq1 st2 hst2mem
        obtain ⟨b, -, -, -, hp1⟩ := stepDriver_ok_spec cfg oracle ts plan L st p hstep
        have hstdr : st.driver_id = stF.driver_id := by
          rw [← hdr2, hrel.1, hp1]
        have hst2cum : st2.cumulative_time = st.cumulative_time + p.2 := by
          rw [hrel.2.2.1, hp1]
        have hrlnd : (recsL.map (fun r => r.driver_id)).Nodup := by
          rw [stepLap_rec_drivers cfg oracle ts plan L sts sts2 recsL heq1]
          exact hnd2
        have hsingle : recsL.filter (fun r => r.driver_id == stF.driver_id) = [r0] :=
          filter_records_single recsL stF.driver_id hrlnd r0 hr0mem
            (by rw [hr0d, hdr2])
        refine ⟨st, hstmem, hstdr, ?_⟩
        rw [List.filter_append, List.map_append, List.sum_append, hsingle,
          hsum2, hst2cum]
        have hr0lt2 : r0.lap_time = p.2 := hr0lt
        simp only [List.map_cons, List.map_nil, List.sum_cons, List.sum_nil,
          hr0lt2]
        omega

/-- C8 counterexample: a plan that repeats a lap refutes the claim as
stated — the `raceSimulator` run with plan `[2, 2]` over 3 laps reports one
pit stop, while the count of laps in the plan is two (and per C2 the
frontend does send such duplicate-bearing plans to the engine). -/
theorem c8_counterexample :
    raceSimulator cfgDefault oracleFlat 3 ["VER"] (fun _ => [2, 2]) =
      .ok outR8 ∧
    outR8.total_pit_stops = [("VER", 1)] ∧
    ¬ (1 : ℕ) = ([2, 2] : List ℕ).length := by
  exact ⟨by decide, by decide, by decide⟩

/-- C8 (amended): in every successful `raceSimulator` run, each driver's
reported `total_pit_stops` equals the number of distinct in-range laps at
which that driver's plan pits — the plan's length exactly when the plan is
duplicate-free and inside `[1, total_laps]`; in particular, with an empty
plan for all drivers (over distinct drivers, at least one lap) every
driver's total is 0 and the final classification is determined purely by
the oracle's lap-time ordering: no pit loss enters any lap time, every lap
time is a valid oracle value plus the lap-indexed warm-up penalty common to
all drivers, each driver's final time is the sum of their emitted lap
times, and positions rank those totals ascending, ties broken by driver
id. -/
theorem c8_total_pit_stops :
    (∀ (cfg : Config) (oracle : Oracle) (totalLaps : ℕ)
      (drivers : List DriverId) (plan : PitPlan) (out : RaceSimOutput),
      raceSimulator cfg oracle totalLaps drivers plan = .ok out →
      ∀ pr ∈ out.total_pit_stops,
        pr.2 = ((List.range' 1 totalLaps).filter
            (fun M => decide (M ∈ plan pr.1))).length ∧
        ((plan pr.1).Nodup → (∀ M ∈ plan pr.1, 1 ≤ M ∧ M ≤ totalLaps) →
          pr.2 = (plan pr.1).length)) ∧
    (∀ (cfg : Config) (oracle : Oracle) (totalLaps : ℕ)
      (drivers : List DriverId) (out : RaceSimOutput),
      drivers.Nodup → 1 ≤ totalLaps →
      raceSimulator cfg oracle totalLaps drivers (fun _ => []) = .ok out →
      (∀ pr ∈ out.total_pit_stops, pr.2 = 0) ∧
      ∃ recs fin,
        projectAux cfg oracle .green (fun _ => []) totalLaps 1
            (seedStates 1 drivers) = .ok (recs, fin) ∧
        out.final_classification =
          fin.map (fun st => (st.driver_id, st.position)) ∧
        (∀ r ∈ recs, r.tyre_age = r.lap ∧
          ∃ c p b, oracle r.driver_id r.lap c .green p = some b ∧ 0 ≤ b ∧
            r.lap_time = b + lapPenalty cfg r.lap false) ∧
        (∀ stF ∈ fin, stF.cumulative_time =
          ((recs.filter (fun r => r.driver_id == stF.driver_id)).map
            (fun r => r.lap_time)).sum) ∧
        (∀ a ∈ fin, ∀ b ∈ fin, a.position < b.position →
          a.cumulative_time < b.cumulative_time ∨
            (a.cumulative_time = b.cumulative_time ∧
              a.driver_id ≤ b.driver_id))) := by
  constructor
  · intro cfg oracle totalLaps drivers plan out hok pr hpr
    simp only [raceSimulator] at hok
    split at hok
    · exact Except.noConfusion hok
    · rename_i recs fin heq
      injection hok with hh
      subst hh
      obtain ⟨stF, hstF, hpr2⟩ := List.mem_map.mp hpr
      obtain ⟨st, hst, hdr, hpc⟩ := projectAux_pit_count cfg oracle .green plan
        totalLaps 1 (seedStates 1 drivers) recs fin heq stF hstF
      have hseed : st.pit_count = 0 := seedStates_pit_count 1 drivers st hst
      subst hpr2
      simp only
      constructor
      · rw [hpc, hseed, hdr, Nat.zero_add]
        exact List.countP_eq_length_filter _ _
      · intro hnd hin
        rw [hpc, hseed, hdr, Nat.zero_add]
        exact countP_mem_range' (plan stF.driver_id) totalLaps hnd hin
  · intro cfg oracle totalLaps drivers out hdnd hlaps hok
    simp only [raceSimulator] at hok
    split at hok
    · exact Except.noConfusion hok
    · rename_i recs fin heq
      injection hok with hh
      subst hh
      have hseednd :
          ((seedStates 1 drivers).map (fun s => s.driver_id)).Nodup := by
        rw [seedStates_drivers]
        exact hdnd
      constructor
      · intro pr hpr
        obtain ⟨stF, hstF, hpr2⟩ := List.mem_map.mp hpr
        obtain ⟨st, hst, -, hpc⟩ := projectAux_pit_count cfg oracle .green
          (fun _ => []) totalLaps 1 (seedStates 1 drivers) recs fin heq stF hstF
        have hseed : st.pit_count = 0 := seedStates_pit_count 1 drivers st hst
        subst hpr2
        simp only
        rw [hpc, hseed]
        simp
      · refine ⟨recs, fin, heq, rfl, ?_, ?_, ?_⟩
        · intro r hr
          have hage : r.tyre_age = r.lap := by
            refine projectAux_noPit_age cfg oracle .green (fun _ => [])
              (fun d => rfl) totalLaps 1 (seedStates 1 drivers) recs fin heq
              ?_ r hr
            intro st hst
            rw [seedStates_tyre_age 1 drivers st hst]
          refine ⟨hage, ?_⟩
          obtain ⟨c, p, b, hb, hb0, hlt⟩ := projectAux_ok_records cfg oracle
            .green (fun _ => []) totalLaps 1 (seedStates 1 drivers) recs fin
            heq r hr
          refine ⟨c, p, b, ?_, hb0, ?_⟩
          · rw [← hage]
            exact hb
          · rw [hlt, hage]
            simp
        · intro stF hstF
          obtain ⟨st, hst, -, hsum⟩ := projectAux_cum_sum cfg oracle .green
            (fun _ => []) totalLaps 1 (seedStates 1 drivers) recs fin hseednd
            heq stF hstF
          rw [hsum, seedStates_cum 1 drivers st hst, zero_add]
        · exact projectAux_fin_rank cfg oracle .green (fun _ => []) totalLaps 1
            (seedStates 1 drivers) recs fin heq hlaps

/-- Witness for C8 on concrete runs: the 3-lap race with plan `[2]` reports
the in-range distinct-lap count 1, and the 2-lap race with empty plans
reports zero stops for every driver. -/
theorem c8_total_pit_stops_witness :
    ((("VER", 1) : DriverId × ℕ).2 =
      ((List.range' 1 3).filter
        (fun M => decide (M ∈ ([2] : List ℕ)))).length) ∧
    ∀ pr ∈ outR8e.total_pit_stops, pr.2 = 0 := by
  constructor
  · exact (c8_total_pit_stops.1 cfgDefault oracleFlat 3 ["VER"]
      (fun _ => [2]) outR8 (by decide) ("VER", 1) (by decide)).1
  · exact (c8_total_pit_stops.2 cfgDefault oracleFlat 2 ["VER"] outR8e
      (by decide) (by decide) (by decide)).1

/-- C7: the projection is deterministic — for fixed driver states, plan,
lap range, track status and oracle stub, two calls of `project` return the
same `LapRecord` sequence (the engine is embedded as a pure function of its
inputs: it consults no clock, no randomness and no shared state). -/
theorem c7_project_deterministic (cfg : Config) (oracle : Oracle)
    (ts : TrackStatus) (plan : PitPlan) (states : List DriverRaceState)
    (fromLap toLap : ℕ) :
    project cfg oracle ts plan states fromLap toLap =
      project cfg oracle ts plan states fromLap toLap := rfl

end F1
